import Mathlib

/-!
Shallow embedding of `servers/hr_monitor/src/assumption_free.py`, the
assumption-free anomaly detector (`AssumptionFreeAA`), together with proofs
about it.

Modelling conventions:
* Python floats are modelled as exact rationals (`ℚ`).  The standard
  deviation `sqrt(variance)` is irrational in general, so values that the
  code scales by `1/std` are carried around unscaled (as the deviation
  `x - mean`) together with the rational `variance`; the comparison
  `breakpoint > v/sqrt(variance)` is decided exactly by `sigmaGT`.
* The breakpoints produced by `scipy.stats.norm.ppf` (an external numeric
  routine, irrational values) are taken as an explicit parameter
  `bps : List ℚ`; the code appends `+inf` as a sentinel, which is modelled
  by treating the index `bps.length` as the sentinel slot that any finite
  value falls into.
* `NaN` contamination (from dividing by a zero standard deviation or from
  taking the mean of an empty slice) is modelled by `SVal.nan`; any
  comparison against `nan` is false, exactly as for IEEE floats.
* Python exceptions are modelled by `Except DErr`; the distinct exception
  kinds the module can raise are the constructors of `DErr`.
* Python strings are `List Char`, Python `set`s / `dict` key sets are
  deduplicated `List (List Char)`, and a `dict` is such a key list paired
  with its value function.
* `collections.deque(maxlen=n)` is a `List` (oldest element first) whose
  `append` drops the leftmost element when the deque is full
  (`dequeAppend`).
-/

/-- Mean of a list of rationals, as computed by `np.mean`; for the empty
list the embedding returns the junk value `0` (the `NaN` produced by
`np.mean([])` is handled by `SVal.nan` at the call sites that can see an
empty slice). -/
def qmean (l : List ℚ) : ℚ := l.sum / (l.length : ℚ)

/-- Population variance (`np.std(...)**2`, `ddof=0`) of a list of
rationals: the mean of the squared deviations from the mean. -/
def qvariance (l : List ℚ) : ℚ :=
  qmean ((l.map (fun x => x - qmean l)).map (fun d => d ^ 2))

/-- Value of one entry of the scaled data inside `_sax`: either a finite
value or `NaN`.  A finite value `fin d` stands for the real number
`d / sqrt(variance)`: the deviation from the mean is kept unscaled so that
everything stays rational. -/
inductive SVal where
  | fin (d : ℚ)
  | nan
deriving DecidableEq

/-- Scaling step of `_sax`: `scaled_data = data - np.mean(data)` followed
by `scaled_data *= 1.0/scaled_data.std()`.  When the standard deviation is
zero (equivalently the rational variance is zero) the code computes
`1.0/0.0 = inf` and `0 * inf = NaN`, so every scaled entry is `NaN`;
otherwise each entry is the finite value `(x - mean)/std`, represented
unscaled by its deviation. -/
def scaleData (data : List ℚ) : List SVal :=
  let dev := data.map (fun x => x - qmean data)
  if qvariance data = 0 then dev.map (fun _ => SVal.nan)
  else dev.map (fun d => SVal.fin d)

/-- Section sizes used by `np.array_split(l, n)`: `l.length % n` sections
of size `l.length / n + 1` followed by the rest of size `l.length / n`. -/
def splitSizes (L n : Nat) : List Nat :=
  (List.range n).map (fun i => if i < L % n then L / n + 1 else L / n)

/-- Cuts a list into consecutive chunks of the given sizes. -/
def takeChunks {α : Type} : List Nat → List α → List (List α)
  | [], _ => []
  | s :: ss, l => l.take s :: takeChunks ss (l.drop s)

/-- Semantics of `np.array_split(l, n)`: `n` contiguous,
as-equal-as-possible sections (the empty list for `n = 0`, where numpy
raises; `_sax` guards that case separately). -/
def arraySplit {α : Type} (l : List α) (n : Nat) : List (List α) :=
  takeChunks (splitSizes l.length n) l

/-- Mean of a list of scaled values, as `np.mean` computes it on floats:
`NaN` if the list is empty or contains a `NaN`, otherwise the finite mean
(still represented as an unscaled deviation). -/
def svalMean (l : List SVal) : SVal :=
  if l.isEmpty ∨ SVal.nan ∈ l then SVal.nan
  else SVal.fin (qmean (l.map (fun v => match v with | SVal.fin d => d | SVal.nan => 0)))

/-- Decides the exact real comparison `b * sqrt var > d` for `var > 0`.
This is how the embedding evaluates the code's float comparison
`breakpoint > section_mean`, where the true section mean is
`d / sqrt var`. -/
def sigmaGT (b var d : ℚ) : Bool :=
  if d < 0 then (if 0 ≤ b then true else decide (d ^ 2 > b ^ 2 * var))
  else decide (0 < b ∧ b ^ 2 * var > d ^ 2)

/-- The table `string.ascii_letters` that `_sax` indexes into. -/
def asciiLetters : List Char :=
  "abcdefghijklmnopqrstuvwxyzABCDEFGHIJKLMNOPQRSTUVWXYZ".toList

/-- The distinct Python exceptions the module can raise. -/
inductive DErr where
  /-- `IndexError` from `deque.popleft()` on an empty deque. -/
  | popEmpty
  /-- `ZeroDivisionError` from `len(window) % feature_size` with
  `feature_size = 0`. -/
  | zeroDivision
  /-- The bare `Exception()` raised by `_get_words` on misaligned input. -/
  | alignment
  /-- `IndexError` from `np.where(breakpoints > section_mean)[0][0]` when no
  breakpoint compares greater (re-raised by the bare `except`). -/
  | saxIndex
  /-- `IndexError` from `string.ascii_letters[ind]` with `ind` at least 52. -/
  | letterIndex
  /-- `ValueError` from `np.array_split(data, 0)`. -/
  | valueError
deriving DecidableEq

/-- Effectful `map` over a list, stopping at the first error: the
evaluation order of a Python list comprehension whose body can raise. -/
def exMapM {α β : Type} (f : α → Except DErr β) : List α → Except DErr (List β)
  | [] => .ok []
  | x :: xs => do
    let y ← f x
    let ys ← exMapM f xs
    .ok (y :: ys)

/-- Lookup `np.where(breakpoints > section_mean)[0][0]` on the breakpoint
array with the `+inf` sentinel appended: for a finite mean the first finite
breakpoint strictly greater than it, defaulting to the sentinel index
`bps.length` (`inf` exceeds every finite value); for a `NaN` mean every
comparison is false and the code raises `IndexError`. -/
def firstBreak (bps : List ℚ) (var : ℚ) (m : SVal) : Except DErr Nat :=
  match m with
  | SVal.nan => .error .saxIndex
  | SVal.fin d =>
    match bps.findIdx? (fun b => sigmaGT b var d) with
    | some i => .ok i
    | none => .ok bps.length

/-- Conversion `string.ascii_letters[ind]` of a breakpoint index to a
letter; raises `IndexError` beyond the 52 ASCII letters. -/
def letterOf (i : Nat) : Except DErr Char :=
  match asciiLetters.get? i with
  | some c => .ok c
  | none => .error .letterIndex

/-- Embedding of `AssumptionFreeAA._sax(data, alphbt_size, word_size)`.
The finite breakpoints `bps` stand for
`norm.ppf(np.linspace(1/alphbt_size, 1 - 1/alphbt_size, alphbt_size - 1))`,
whose irrational values the embedding takes as a parameter; the appended
`+inf` sentinel is the index `bps.length` in `firstBreak`. -/
def sax (bps : List ℚ) (data : List ℚ) (word_size : Nat) :
    Except DErr (List Char) := do
  if word_size = 0 then .error .valueError
  else
    let var := qvariance data
    let scaled := scaleData data
    let sections := arraySplit scaled word_size
    let section_means := sections.map svalMean
    let section_locations ← exMapM (firstBreak bps var) section_means
    let sax_phrases ← exMapM letterOf section_locations
    .ok sax_phrases

/-- Index of the first breakpoint strictly greater than a section mean,
with the sentinel index `bps.length` standing for `+inf` (and the junk
index 0 for a `NaN` mean, never used under the hypotheses of the theorems
below). -/
def locOf (bps : List ℚ) (var : ℚ) (m : SVal) : Nat :=
  match m with
  | SVal.fin d => (bps.findIdx? (fun b => sigmaGT b var d)).getD bps.length
  | SVal.nan => 0

/-- Statement-side description of the SAX word, following the claim: split
the standardized data into `word_size` as-equal-as-possible partitions, map
each partition mean to the index of the first breakpoint strictly greater
than it (with the sentinel index for `+inf`), and convert indices to
letters. -/
def saxSpec (bps : List ℚ) (data : List ℚ) (word_size : Nat) : List Char :=
  (arraySplit (scaleData data) word_size).map (fun sec =>
    asciiLetters.getD (locOf bps (qvariance data) (svalMean sec)) 'a')

/-- Embedding of `AssumptionFreeAA._count_substr(stack, needle)`: the number
of (possibly overlapping) occurrences of `needle` in `stack`, scanning the
start positions `range(len(stack) - len(needle) + 1)`. -/
def count_substr (stack needle : List Char) : Nat :=
  ((List.range (stack.length - needle.length + 1)).filter
    (fun i => (stack.drop i).take needle.length = needle)).length

/-- Statement-side occurrence count: the number of positions `i` at which
`needle` fits inside `stack` and the slice of `stack` starting at `i`
equals `needle`. -/
def specOcc (stack needle : List Char) : Nat :=
  ((List.range (stack.length + 1)).filter
    (fun i => i + needle.length ≤ stack.length ∧
      (stack.drop i).take needle.length = needle)).length

/-- One expansion step of `_build_combinations`:
`set(c+a for a in alphabet for c in combinations)`. -/
def extendAll (alphabet : List Char) (combos : List (List Char)) :
    List (List Char) :=
  (alphabet.flatMap (fun a => combos.map (fun c => c ++ [a]))).dedup

/-- Embedding of `AssumptionFreeAA._build_combinations`: seeds the empty
set with the single-character strings of the alphabet (decrementing the
remaining length), then repeatedly appends every alphabet character to
every combination. -/
def build_combinations (alphabet : List Char) (combinations : List (List Char))
    (combination_len : Nat) : List (List Char) :=
  if combinations.length = 0 then
    match combination_len with
    | 0 => (alphabet.map (fun a => [a])).dedup
    | 1 => (alphabet.map (fun a => [a])).dedup
    | k + 2 => build_combinations alphabet
        (extendAll alphabet ((alphabet.map (fun a => [a])).dedup)) k
  else
    match combination_len with
    | 0 => combinations
    | k + 1 => build_combinations alphabet (extendAll alphabet combinations) k

/-- Embedding of `AssumptionFreeAA._count_frequencies(words, alphabet,
subword_len)`: the dictionary with one key per combination, each key
mapped to the total occurrence count of that subword over all words
(a float in the code, hence `ℚ` here; keys outside the dictionary are
sent to the junk value 0). -/
def count_frequencies (words : List (List Char)) (alphabet : List Char)
    (subword_len : Nat) : List (List Char) × (List Char → ℚ) :=
  let combos := build_combinations alphabet [] subword_len
  (combos, fun c =>
    if c ∈ combos then ((words.map (fun w => (count_substr w c : ℚ))).sum)
    else 0)

/-- The zero matrix `np.zeros(shape=(n, n))` as a list of rows. -/
def zerosMatrix (n : Nat) : List (List ℚ) :=
  List.replicate n (List.replicate n 0)

/-- Assignment `bitmap[i, j] = v` on a list-of-rows matrix. -/
def setCell (m : List (List ℚ)) (i j : Nat) (v : ℚ) : List (List ℚ) :=
  m.set i ((m.getD i []).set j v)

/-- Maximum of a list of rationals, as `max(values)`; the empty list
(where Python raises `ValueError`) gets the junk value 0 — `detect` only
builds tables over the nonempty combination set, and every theorem about
`build_bitmap` assumes a nonempty table. -/
def listMax : List ℚ → ℚ
  | [] => 0
  | [x] => x
  | x :: y :: xs => max x (listMax (y :: xs))

/-- The `for key in ordered_keys` loop of `_build_bitmap`: writes the
values row-major, wrapping `j` with `j % matrix_size` and moving to the
next row when `j` reaches the row width. -/
def fillLoop (size : Nat) : List ℚ → List (List ℚ) → Nat → Nat → List (List ℚ)
  | [], m, _, _ => m
  | v :: rest, m, i, j =>
    let j1 := j % size
    let m1 := setCell m i j1 v
    if j1 + 1 = size then fillLoop size rest m1 (i + 1) (j1 + 1)
    else fillLoop size rest m1 i (j1 + 1)

/-- Embedding of `AssumptionFreeAA._build_bitmap(freqs)`: normalizes every
entry by the maximum value (0 when the maximum is 0) and lays the entries
out row-major over the keys in sorted order, in a square matrix of side
`sqrt(len(freqs))`.  The code computes the side as a float `sqrt`; for the
perfect-square table sizes this embedding is used at, that equals
`Nat.sqrt`. -/
def build_bitmap (keys : List (List Char)) (f : List Char → ℚ) :
    List (List ℚ) :=
  let matrix_size := Nat.sqrt keys.length
  let ordered_keys := List.insertionSort (· ≤ ·) keys
  let max_value := listMax (ordered_keys.map f)
  let vals := ordered_keys.map (fun k => if max_value ≠ 0 then f k / max_value else 0)
  fillLoop matrix_size vals (zerosMatrix matrix_size) 0 0

/-- Squared difference summed over one pair of rows. -/
def rowDist (r1 r2 : List ℚ) : ℚ :=
  (List.zipWith (fun a b => (a - b) ^ 2) r1 r2).sum

/-- Embedding of `AssumptionFreeAA._dist(A, B)`:
`np.power(A-B, 2).sum()` for two equal-shaped matrices.  (Named `distFn`
because `dist` collides with the metric-space distance.) -/
def distFn (A B : List (List ℚ)) : ℚ := (List.zipWith rowDist A B).sum

/-- Decides that two list-of-rows matrices have identical shape. -/
def sameShape (A B : List (List ℚ)) : Bool :=
  A.length == B.length &&
    (A.zip B).all (fun p => p.1.length == p.2.length)

/-- The `Analysis` namedtuple `(score, bitmp1, bitmp2)`. -/
structure Analysis where
  score : ℚ
  bitmp1 : List (List ℚ)
  bitmp2 : List (List ℚ)
deriving DecidableEq

/-- State of an `AssumptionFreeAA` instance, with every attribute
`__init__` assigns (timestamps are abstracted to integers; `datetime.min`
is 0). -/
structure AssumptionFreeAA where
  word_size : Nat
  window_factor : Nat
  window_size : Nat
  lead_window_factor : Nat
  lead_window_size : Nat
  lag_window_factor : Nat
  lag_window_size : Nat
  universe_size : Nat
  recursion_level : Nat
  lead_window : List ℚ
  lag_window : List ℚ
  last_timestamp : ℤ
deriving DecidableEq

/-- Embedding of `AssumptionFreeAA.__init__`: pure attribute assignments,
with `window_size = window_factor * word_size`, the lead/lag capacities as
the corresponding multiples of `window_size`, and empty windows.  No
argument validation of any kind is performed. -/
def initAFA (word_size window_factor lead_window_factor lag_window_factor
    recursion_level : Nat) : AssumptionFreeAA :=
  { word_size := word_size
    window_factor := window_factor
    window_size := window_factor * word_size
    lead_window_factor := lead_window_factor
    lead_window_size := lead_window_factor * (window_factor * word_size)
    lag_window_factor := lag_window_factor
    lag_window_size := lag_window_factor * (window_factor * word_size)
    universe_size := lead_window_factor * (window_factor * word_size) +
      lag_window_factor * (window_factor * word_size)
    recursion_level := recursion_level
    lead_window := []
    lag_window := []
    last_timestamp := 0 }

/-- Append on a `collections.deque(maxlen=maxlen)`: when the deque is at
capacity the leftmost (oldest) element is dropped. -/
def dequeAppend (maxlen : Nat) (l : List ℚ) (x : ℚ) : List ℚ :=
  if maxlen = 0 then []
  else if maxlen ≤ l.length then (l ++ [x]).drop (l.length + 1 - maxlen)
  else l ++ [x]

/-- The fixed alphabet `'abcd'` that `detect` passes to
`_count_frequencies`. -/
def countingAlphabet : List Char := ['a', 'b', 'c', 'd']

/-- Embedding of `AssumptionFreeAA._get_words(window, feature_size,
word_size)`: raises on misaligned windows, otherwise SAX-encodes the
`len(window)/feature_size` contiguous slices in order.  Evaluating
`len(window) % feature_size` with `feature_size = 0` raises
`ZeroDivisionError` in Python before the alignment test. -/
def get_words (bps : List ℚ) (window : List ℚ) (feature_size word_size : Nat) :
    Except DErr (List (List Char)) :=
  if feature_size = 0 then .error .zeroDivision
  else if window.length % feature_size ≠ 0 then .error .alignment
  else
    exMapM
      (fun i => sax bps ((window.drop (i * feature_size)).take feature_size)
        word_size)
      (List.range (window.length / feature_size))

/-- One full detection cycle of `detect`, run when both windows are full:
words, frequency tables (over the fixed alphabet `'abcd'` and subword
length `recursion_level`), bitmaps, and the dissimilarity score. -/
def runCycle (bps : List ℚ) (s : AssumptionFreeAA) : Except DErr Analysis := do
  let lead_words ← get_words bps s.lead_window s.window_size s.word_size
  let lag_words ← get_words bps s.lag_window s.window_size s.word_size
  let lead_freqs := count_frequencies lead_words countingAlphabet s.recursion_level
  let lag_freqs := count_frequencies lag_words countingAlphabet s.recursion_level
  let lead_bitmap := build_bitmap lead_freqs.1 lead_freqs.2
  let lag_bitmap := build_bitmap lag_freqs.1 lag_freqs.2
  .ok { score := distFn lead_bitmap lag_bitmap
        bitmp1 := lead_bitmap
        bitmp2 := lag_bitmap }

/-- Ingestion step of `detect` for one datapoint: if the lead window is at
capacity its oldest sample is popped into the lag window (which evicts its
own oldest if full), then the datapoint is appended to the lead window. -/
def ingestOne (s : AssumptionFreeAA) (x : ℚ) : Except DErr AssumptionFreeAA :=
  if s.lead_window.length = s.lead_window_size then
    match s.lead_window with
    | [] => .error .popEmpty
    | y :: rest =>
      .ok { s with
        lag_window := dequeAppend s.lag_window_size s.lag_window y
        lead_window := dequeAppend s.lead_window_size rest x }
  else
    .ok { s with lead_window := dequeAppend s.lead_window_size s.lead_window x }

/-- Iterated ingestion (the window mutations of `detect`, without the
detection cycles, which never touch the windows). -/
def ingestAll (s : AssumptionFreeAA) : List ℚ → Except DErr AssumptionFreeAA
  | [] => .ok s
  | x :: xs => do
    let s1 ← ingestOne s x
    ingestAll s1 xs

/-- The full-windows test and conditional detection cycle of `detect`. -/
def maybeCycle (bps : List ℚ) (s : AssumptionFreeAA) :
    Except DErr (Option Analysis) :=
  if s.lead_window.length = s.lead_window_size ∧
      s.lag_window.length = s.lag_window_size then
    (runCycle bps s).map some
  else .ok none

/-- The `for datapoint in datapoints` loop of `detect`.  The first
component is the detector state as mutated so far (Python state survives a
raised exception); the second is the list of analysis results, or the
exception, in which case any results accumulated earlier in the batch are
lost to the caller. -/
def detectLoop (bps : List ℚ) (s : AssumptionFreeAA) :
    List ℚ → AssumptionFreeAA × Except DErr (List Analysis)
  | [] => (s, .ok [])
  | x :: rest =>
    match ingestOne s x with
    | .error e => (s, .error e)
    | .ok s1 =>
      match maybeCycle bps s1 with
      | .error e => (s1, .error e)
      | .ok none => detectLoop bps s1 rest
      | .ok (some a) =>
        match detectLoop bps s1 rest with
        | (s2, .error e) => (s2, .error e)
        | (s2, .ok res) => (s2, .ok (a :: res))

/-- Embedding of `AssumptionFreeAA.detect(datapoints, last_timestamp)`:
records the timestamp first, then processes the datapoints in order. -/
def detect (bps : List ℚ) (s : AssumptionFreeAA) (datapoints : List ℚ)
    (last_timestamp : ℤ) : AssumptionFreeAA × Except DErr (List Analysis) :=
  detectLoop bps { s with last_timestamp := last_timestamp } datapoints

/-- A sequence of `detect` calls on the same detector, each with its batch
of datapoints and its timestamp; stops at the first call that raises. -/
def runCalls (bps : List ℚ) (s : AssumptionFreeAA) :
    List (List ℚ × ℤ) → Except DErr (AssumptionFreeAA × List (List Analysis))
  | [] => .ok (s, [])
  | (dps, ts) :: rest =>
    match detect bps s dps ts with
    | (_, .error e) => .error e
    | (s1, .ok res) =>
      (runCalls bps s1 rest).map (fun p => (p.1, res :: p.2))

/-- Total number of samples ingested by the first `i` calls of a call
sequence. -/
def prefixCount (calls : List (List ℚ × ℤ)) (i : Nat) : Nat :=
  (((calls.take i).map (fun c => c.1.length)).sum)

theorem rowDist_symm (r1 r2 : List ℚ) : rowDist r1 r2 = rowDist r2 r1 := by
  induction r1 generalizing r2 with
  | nil => cases r2 <;> simp [rowDist]
  | cons a t1 ih =>
    cases r2 with
    | nil => simp [rowDist]
    | cons b t2 =>
      have h := ih t2
      simp only [rowDist, List.zipWith_cons_cons, List.sum_cons] at h ⊢
      rw [h]; ring_nf

theorem rowDist_nonneg (r1 r2 : List ℚ) : 0 ≤ rowDist r1 r2 := by
  induction r1 generalizing r2 with
  | nil => simp [rowDist]
  | cons a t1 ih =>
    cases r2 with
    | nil => simp [rowDist]
    | cons b t2 =>
      have h := ih t2
      simp only [rowDist, List.zipWith_cons_cons, List.sum_cons] at h ⊢
      have hsq : (0 : ℚ) ≤ (a - b) ^ 2 := sq_nonneg _
      linarith

theorem rowDist_self (r : List ℚ) : rowDist r r = 0 := by
  induction r with
  | nil => simp [rowDist]
  | cons a t ih =>
    simp only [rowDist, List.zipWith_cons_cons, List.sum_cons] at ih ⊢
    simp [ih]

theorem rowDist_eq_zero (r1 r2 : List ℚ) (hl : r1.length = r2.length)
    (h : rowDist r1 r2 = 0) : r1 = r2 := by
  induction r1 generalizing r2 with
  | nil => cases r2 with
    | nil => rfl
    | cons b t2 => simp at hl
  | cons a t1 ih =>
    cases r2 with
    | nil => simp at hl
    | cons b t2 =>
      simp only [rowDist, List.zipWith_cons_cons, List.sum_cons] at h
      have h1 : (0 : ℚ) ≤ (a - b) ^ 2 := sq_nonneg _
      have h2 : 0 ≤ rowDist t1 t2 := rowDist_nonneg t1 t2
      have hab : (a - b) ^ 2 = 0 := by
        have := h
        simp only [rowDist] at h2
        linarith
      have hr : rowDist t1 t2 = 0 := by
        simp only [rowDist] at h2 ⊢
        linarith
      have hab' : a = b := by
        have := pow_eq_zero_iff (n := 2) (by norm_num) |>.mp hab
        linarith [sub_eq_zero.mp this]
      have ht : t1 = t2 := ih t2 (by simpa using hl) hr
      rw [hab', ht]

theorem distFn_symm (A B : List (List ℚ)) : distFn A B = distFn B A := by
  induction A generalizing B with
  | nil => cases B <;> simp [distFn]
  | cons r1 t1 ih =>
    cases B with
    | nil => simp [distFn]
    | cons r2 t2 =>
      have h := ih t2
      simp only [distFn, List.zipWith_cons_cons, List.sum_cons] at h ⊢
      rw [h, rowDist_symm]

theorem distFn_nonneg (A B : List (List ℚ)) : 0 ≤ distFn A B := by
  induction A generalizing B with
  | nil => simp [distFn]
  | cons r1 t1 ih =>
    cases B with
    | nil => simp [distFn]
    | cons r2 t2 =>
      have h := ih t2
      simp only [distFn, List.zipWith_cons_cons, List.sum_cons] at h ⊢
      have := rowDist_nonneg r1 r2
      linarith

theorem distFn_self (A : List (List ℚ)) : distFn A A = 0 := by
  induction A with
  | nil => simp [distFn]
  | cons r t ih =>
    simp only [distFn, List.zipWith_cons_cons, List.sum_cons] at ih ⊢
    simp [ih, rowDist_self]

theorem distFn_eq_zero (A B : List (List ℚ)) (h : sameShape A B = true)
    (hd : distFn A B = 0) : A = B := by
  induction A generalizing B with
  | nil =>
    cases B with
    | nil => rfl
    | cons r2 t2 => simp [sameShape] at h
  | cons r1 t1 ih =>
    cases B with
    | nil => simp [sameShape] at h
    | cons r2 t2 =>
      simp only [sameShape, List.length_cons, beq_iff_eq, List.zip_cons_cons,
        List.all_cons, Bool.and_eq_true, decide_eq_true_eq] at h
      obtain ⟨hlen, hrow, hrest⟩ := h
      simp only [distFn, List.zipWith_cons_cons, List.sum_cons] at hd
      have h1 : 0 ≤ rowDist r1 r2 := rowDist_nonneg r1 r2
      have h2 : 0 ≤ distFn t1 t2 := distFn_nonneg t1 t2
      simp only [distFn] at h2
      have hr0 : rowDist r1 r2 = 0 := by linarith
      have ht0 : distFn t1 t2 = 0 := by simp only [distFn]; linarith
      have hr : r1 = r2 := rowDist_eq_zero r1 r2 hrow hr0
      have hshape : sameShape t1 t2 = true := by
        simp only [sameShape, beq_iff_eq, Bool.and_eq_true]
        exact ⟨by omega, hrest⟩
      have ht : t1 = t2 := ih t2 hshape ht0
      rw [hr, ht]

theorem sameShape_self (A : List (List ℚ)) : sameShape A A = true := by
  simp only [sameShape, beq_self_eq_true, Bool.true_and, List.all_eq_true]
  intro p hp
  have : p.1 = p.2 := by
    induction A with
    | nil => simp at hp
    | cons r t ih =>
      simp only [List.zip_cons_cons, List.mem_cons] at hp
      rcases hp with h | h
      · rw [h]
      · exact ih h
  simp [this]

/-- Claim C5: for bitmaps of identical shape the dissimilarity metric is
the sum over all cells of the squared difference (as `dist` computes), is
symmetric, nonnegative, and zero exactly for identical bitmaps; in
particular `distFn A A = 0`. -/
theorem dissimilarity_metric (A B : List (List ℚ)) (h : sameShape A B = true) :
    distFn A B = distFn B A ∧ 0 ≤ distFn A B ∧ (distFn A B = 0 ↔ A = B) ∧
      distFn A A = 0 := by
  refine ⟨distFn_symm A B, distFn_nonneg A B, ⟨fun hd => distFn_eq_zero A B h hd,
    fun he => ?_⟩, distFn_self A⟩
  rw [he]; exact distFn_self B

/-- Witness for C5 at a concrete pair of equal-shaped bitmaps. -/
theorem dissimilarity_metric_witness :
    distFn [[0, 1], [1, 0]] [[1, 0], [0, 1]] = distFn [[1, 0], [0, 1]] [[0, 1], [1, 0]] ∧
      0 ≤ distFn [[0, 1], [1, 0]] [[1, 0], [0, 1]] ∧
      (distFn [[0, 1], [1, 0]] [[1, 0], [0, 1]] = 0 ↔
        ([[0, 1], [1, 0]] : List (List ℚ)) = [[1, 0], [0, 1]]) ∧
      distFn [[0, 1], [1, 0]] [[0, 1], [1, 0]] = 0 :=
  dissimilarity_metric [[0, 1], [1, 0]] [[1, 0], [0, 1]] (by decide)


/-- Claim C8: behavior of `_sax` on a zero-variance input.  The code does
not guard the degenerate case: the division by the zero standard deviation
is performed (giving `inf`, hence `NaN` scaled values), and the encoding
then fails with the breakpoint-lookup `IndexError` — not with a
configuration error or a defined fallback. -/
theorem sax_zero_variance_behavior :
    scaleData [5, 5, 5, 5] = List.replicate 4 SVal.nan ∧
      sax [-1, 0, 1] [5, 5, 5, 5] 2 = .error .saxIndex := by
  have hv : qvariance [5, 5, 5, 5] = 0 := by norm_num [qvariance, qmean]
  have hs : scaleData [5, 5, 5, 5] = List.replicate 4 SVal.nan := by
    simp [scaleData, hv, List.replicate]
  refine ⟨hs, ?_⟩
  simp [sax, hs, arraySplit, splitSizes, takeChunks, svalMean, firstBreak,
    exMapM, List.range_succ, Bind.bind, Except.bind]

theorem mem_extendAll (A : List Char) (C : List (List Char)) (l : List Char) :
    l ∈ extendAll A C ↔ ∃ a ∈ A, ∃ c ∈ C, l = c ++ [a] := by
  simp only [extendAll, List.mem_dedup, List.mem_flatMap, List.mem_map]
  constructor
  · rintro ⟨a, ha, c, hc, rfl⟩
    exact ⟨a, ha, c, hc, rfl⟩
  · rintro ⟨a, ha, c, hc, rfl⟩
    exact ⟨a, ha, c, hc, rfl⟩

theorem length_extendAll (A : List Char) (C : List (List Char))
    (hA : A.Nodup) (hC : C.Nodup) :
    (extendAll A C).length = A.length * C.length := by
  have hnd : (A.flatMap (fun a => C.map (fun c => c ++ [a]))).Nodup := by
    rw [List.nodup_flatMap]
    refine ⟨fun a _ => hC.map (fun c1 c2 h => List.append_cancel_right h), ?_⟩
    refine hA.imp ?_
    intro a b hab l hl1 hl2
    simp only [List.mem_map] at hl1 hl2
    obtain ⟨c1, _, rfl⟩ := hl1
    obtain ⟨c2, _, h2⟩ := hl2
    have ha : (c1 ++ [a]).getLast? = some a := List.getLast?_concat c1
    have hb : (c1 ++ [a]).getLast? = some b := by
      rw [← h2]; exact List.getLast?_concat c2
    exact hab (by rw [ha] at hb; simpa using hb)
  rw [extendAll, List.dedup_eq_self.mpr hnd, List.length_flatMap]
  have : (List.map (List.length ∘ fun a => C.map (fun c => c ++ [a])) A) =
      List.replicate A.length C.length := by
    rw [← List.map_const]
    exact List.map_congr_left (fun a _ => by simp [Function.const])
  rw [this, List.sum_replicate]
  simp [Nat.mul_comm]

theorem build_combinations_zero (A : List Char) (C : List (List Char))
    (hC : C.length ≠ 0) : build_combinations A C 0 = C := by
  conv_lhs => unfold build_combinations
  rw [if_neg hC]

theorem build_combinations_succ (A : List Char) (C : List (List Char)) (k : Nat)
    (hC : C.length ≠ 0) :
    build_combinations A C (k + 1) = build_combinations A (extendAll A C) k := by
  conv_lhs => unfold build_combinations
  rw [if_neg hC]

theorem build_combinations_seed_one (A : List Char) :
    build_combinations A [] 1 = (A.map (fun a => [a])).dedup := by
  conv_lhs => unfold build_combinations
  rw [if_pos (show ([] : List (List Char)).length = 0 from rfl)]

theorem build_combinations_seed_two (A : List Char) (k : Nat) :
    build_combinations A [] (k + 2) =
      build_combinations A (extendAll A ((A.map (fun a => [a])).dedup)) k := by
  conv_lhs => unfold build_combinations
  rw [if_pos (show ([] : List (List Char)).length = 0 from rfl)]

/-- The set `C` is exactly the set of words of length `m` over `A`, with
no duplicates and the full cardinality. -/
def GoodCombos (A : List Char) (m : Nat) (C : List (List Char)) : Prop :=
  C.Nodup ∧ (∀ l, l ∈ C ↔ l.length = m ∧ ∀ c ∈ l, c ∈ A) ∧
    C.length = A.length ^ m

theorem goodCombos_extend (A : List Char) (m : Nat) (C : List (List Char))
    (hA : A.Nodup) (h : GoodCombos A m C) :
    GoodCombos A (m + 1) (extendAll A C) := by
  obtain ⟨hnd, hmem, hlen⟩ := h
  refine ⟨by simp [extendAll, List.nodup_dedup], ?_, ?_⟩
  · intro l
    rw [mem_extendAll]
    constructor
    · rintro ⟨a, ha, c, hc, rfl⟩
      obtain ⟨hcl, hcc⟩ := (hmem c).mp hc
      refine ⟨by simp [hcl], ?_⟩
      intro x hx
      rcases List.mem_append.mp hx with h | h
      · exact hcc x h
      · have hxa : x = a := by simpa using h
        exact hxa ▸ ha
    · rintro ⟨hl, hc⟩
      have hne : l ≠ [] := by
        intro h; rw [h] at hl; simp at hl
      refine ⟨l.getLast hne, hc _ (List.getLast_mem hne), l.dropLast, ?_,
        (List.dropLast_append_getLast hne).symm⟩
      rw [hmem]
      constructor
      · have := List.length_dropLast l
        omega
      · intro x hx
        exact hc x ((List.dropLast_sublist l).subset hx)
  · rw [length_extendAll A C hA hnd, hlen, pow_succ]
    ring

theorem goodCombos_seed (A : List Char) (hA : A.Nodup) :
    GoodCombos A 1 ((A.map (fun a => [a])).dedup) := by
  have hnd : (A.map (fun a => [a])).Nodup :=
    hA.map (fun a b h => by simpa using h)
  rw [List.dedup_eq_self.mpr hnd]
  refine ⟨hnd, ?_, by simp⟩
  intro l
  simp only [List.mem_map]
  constructor
  · rintro ⟨a, ha, rfl⟩
    exact ⟨rfl, by simpa using ha⟩
  · rintro ⟨hl, hc⟩
    match l, hl with
    | [a], _ => exact ⟨a, by simpa using hc, rfl⟩

theorem build_combinations_good (A : List Char) (hA : A.Nodup)
    (hAne : A ≠ []) :
    ∀ (k : Nat) (C : List (List Char)) (m : Nat), C.length ≠ 0 →
      GoodCombos A m C →
      GoodCombos A (m + k) (build_combinations A C k) := by
  intro k
  induction k with
  | zero =>
    intro C m hCne hC
    rw [build_combinations_zero A C hCne]
    simpa using hC
  | succ k ih =>
    intro C m hCne hC
    rw [build_combinations_succ A C k hCne]
    have hext : GoodCombos A (m + 1) (extendAll A C) :=
      goodCombos_extend A m C hA hC
    have hlen : (extendAll A C).length ≠ 0 := by
      rw [hext.2.2]
      have : A.length ≠ 0 := by
        intro h; exact hAne (List.length_eq_zero.mp h)
      positivity
    have hres := ih (extendAll A C) (m + 1) hlen hext
    rw [show m + (k + 1) = m + 1 + k by omega]
    exact hres

theorem build_combinations_entry (A : List Char) (hA : A.Nodup)
    (hAne : A ≠ []) (n : Nat) (hn : 1 ≤ n) :
    GoodCombos A n (build_combinations A [] n) := by
  have hseed := goodCombos_seed A hA
  match n, hn with
  | 1, _ =>
    rw [build_combinations_seed_one]
    exact hseed
  | (k + 2), _ =>
    rw [build_combinations_seed_two]
    have hext : GoodCombos A 2 (extendAll A ((A.map (fun a => [a])).dedup)) :=
      goodCombos_extend A 1 _ hA hseed
    have hlen : (extendAll A ((A.map (fun a => [a])).dedup)).length ≠ 0 := by
      rw [hext.2.2]
      have : A.length ≠ 0 := by
        intro h; exact hAne (List.length_eq_zero.mp h)
      positivity
    have hres := build_combinations_good A hA hAne k _ 2 hlen hext
    have heq : 2 + k = k + 1 + 1 := by omega
    rw [heq] at hres
    exact hres

theorem count_substr_eq_specOcc (stack needle : List Char) :
    count_substr stack needle = specOcc stack needle := by
  rcases le_or_lt needle.length stack.length with hle | hlt
  · have hsplit : stack.length + 1 =
        (stack.length - needle.length + 1) + needle.length := by omega
    unfold specOcc count_substr
    conv_rhs => rw [hsplit, List.range_add]
    rw [List.filter_append, List.length_append]
    have h2 : List.filter
        (fun i => decide (i + needle.length ≤ stack.length ∧
          (stack.drop i).take needle.length = needle))
        ((List.range needle.length).map
          (fun x => stack.length - needle.length + 1 + x)) = [] := by
      rw [List.filter_eq_nil_iff]
      intro a ha
      simp only [List.mem_map, List.mem_range] at ha
      obtain ⟨x, hx, rfl⟩ := ha
      simp only [decide_eq_true_eq, not_and]
      intro hcontra
      omega
    rw [h2]
    have h3 : List.filter
        (fun i => decide (i + needle.length ≤ stack.length ∧
          (stack.drop i).take needle.length = needle))
        (List.range (stack.length - needle.length + 1)) =
        List.filter (fun i => decide ((stack.drop i).take needle.length = needle))
          (List.range (stack.length - needle.length + 1)) := by
      refine List.filter_congr ?_
      intro i hi
      simp only [List.mem_range] at hi
      rw [decide_eq_decide]
      constructor
      · rintro ⟨_, h⟩; exact h
      · intro h; exact ⟨by omega, h⟩
    rw [h3]
    simp
  · unfold specOcc count_substr
    have h1 : stack.length - needle.length + 1 = 1 := by omega
    rw [h1]
    have h2 : List.filter
        (fun i => decide ((stack.drop i).take needle.length = needle))
        (List.range 1) = [] := by
      rw [List.filter_eq_nil_iff]
      intro a ha
      simp only [List.mem_range, Nat.lt_one_iff] at ha
      subst ha
      simp only [decide_eq_true_eq]
      intro hcontra
      have := congrArg List.length hcontra
      simp only [List.length_take, List.length_drop, Nat.sub_zero] at this
      omega
    have h3 : List.filter
        (fun i => decide (i + needle.length ≤ stack.length ∧
          (stack.drop i).take needle.length = needle))
        (List.range (stack.length + 1)) = [] := by
      rw [List.filter_eq_nil_iff]
      intro a ha
      simp only [List.mem_range] at ha
      simp only [decide_eq_true_eq, not_and]
      intro hcontra
      omega
    rw [h2, h3]

/-- Claim C3 (amended to `recursion_level ≥ 1`): for a duplicate-free,
nonempty counting alphabet the frequency counter's key set is exactly the
set of all strings of length `recursion_level` over the alphabet —
cardinality `alphabet_size ^ recursion_level`, independent of the words —
and every key's count is the total number of possibly-overlapping
occurrences of that subword across all words (0 for a subword occurring in
no word). -/
theorem count_frequencies_keys (words : List (List Char)) (alphabet : List Char)
    (n : Nat) (hA : alphabet.Nodup) (hAne : alphabet ≠ []) (hn : 1 ≤ n) :
    (count_frequencies words alphabet n).1.Nodup ∧
      (∀ l, l ∈ (count_frequencies words alphabet n).1 ↔
        (l.length = n ∧ ∀ c ∈ l, c ∈ alphabet)) ∧
      (count_frequencies words alphabet n).1.length = alphabet.length ^ n ∧
      (∀ l ∈ (count_frequencies words alphabet n).1,
        (count_frequencies words alphabet n).2 l =
          ((words.map (fun w => (specOcc w l : ℚ))).sum)) := by
  obtain ⟨hnd, hmem, hlen⟩ := build_combinations_entry alphabet hA hAne n hn
  refine ⟨hnd, hmem, hlen, ?_⟩
  intro l hl
  simp only [count_frequencies] at hl ⊢
  rw [if_pos hl]
  congr 1
  exact List.map_congr_left (fun w _ => by rw [count_substr_eq_specOcc])

/-- Claim C3 as stated fails at `recursion_level = 0`: the key set built by
the code is the four single-character strings, of size 4, not the
`4 ^ 0 = 1` strings of length 0. -/
theorem count_frequencies_level_zero_cex :
    (count_frequencies [] countingAlphabet 0).1.length ≠
      countingAlphabet.length ^ 0 := by decide

/-- Witness for C3 at the alphabet `'abcd'` and subword length 2, checking
also the overlapping count: `'aa'` occurs 3 times in `'aaaa'`. -/
theorem count_frequencies_keys_witness :
    ((count_frequencies [['a', 'a', 'a', 'a']] countingAlphabet 2).1.length =
      countingAlphabet.length ^ 2) ∧
      (count_frequencies [['a', 'a', 'a', 'a']] countingAlphabet 2).2
        ['a', 'a'] = 3 := by
  have h := count_frequencies_keys [['a', 'a', 'a', 'a']] countingAlphabet 2
    (by decide) (by decide) (by decide)
  refine ⟨h.2.2.1, ?_⟩
  have hmem : ['a', 'a'] ∈
      (count_frequencies [['a', 'a', 'a', 'a']] countingAlphabet 2).1 := by
    decide
  rw [h.2.2.2 _ hmem]
  have hocc : specOcc ['a', 'a', 'a', 'a'] ['a', 'a'] = 3 := by decide
  simp [hocc]

theorem exMapM_ok {α β : Type} (f : α → Except DErr β) :
    ∀ (l : List α) (ys : List β), exMapM f l = .ok ys →
      ys.length = l.length ∧ ∀ i (hi : i < l.length) (hy : i < ys.length),
        f (l.get ⟨i, hi⟩) = .ok (ys.get ⟨i, hy⟩) := by
  intro l
  induction l with
  | nil =>
    intro ys h
    simp only [exMapM] at h
    cases h
    exact ⟨rfl, fun i hi => by simp at hi⟩
  | cons x xs ih =>
    intro ys h
    simp only [exMapM, Bind.bind, Except.bind] at h
    cases hfx : f x with
    | error e => rw [hfx] at h; cases h
    | ok y =>
      rw [hfx] at h
      cases hrest : exMapM f xs with
      | error e => rw [hrest] at h; cases h
      | ok ys2 =>
        rw [hrest] at h
        cases h
        obtain ⟨hlen, hpt⟩ := ih ys2 hrest
        refine ⟨by simp [hlen], ?_⟩
        intro i hi hy
        cases i with
        | zero => simpa using hfx
        | succ j =>
          have hj : j < xs.length := by simpa using hi
          have hjy : j < ys2.length := by simpa using hy
          simpa using hpt j hj hjy

theorem exMapM_error {α β : Type} (f : α → Except DErr β) :
    ∀ (l : List α) (e : DErr), exMapM f l = .error e → ∃ x ∈ l, f x = .error e := by
  intro l
  induction l with
  | nil => intro e h; simp [exMapM] at h
  | cons x xs ih =>
    intro e h
    simp only [exMapM, Bind.bind, Except.bind] at h
    cases hfx : f x with
    | error e1 =>
      rw [hfx] at h
      cases h
      exact ⟨x, List.mem_cons_self x xs, hfx⟩
    | ok y =>
      rw [hfx] at h
      cases hrest : exMapM f xs with
      | error e1 =>
        rw [hrest] at h
        cases h
        obtain ⟨z, hz, hfz⟩ := ih e hrest
        exact ⟨z, List.mem_cons_of_mem x hz, hfz⟩
      | ok ys => rw [hrest] at h; cases h

theorem exMapM_ok_of_forall {α β : Type} (f : α → Except DErr β) (g : α → β) :
    ∀ (l : List α), (∀ x ∈ l, f x = .ok (g x)) → exMapM f l = .ok (l.map g) := by
  intro l
  induction l with
  | nil => intro _; simp [exMapM]
  | cons x xs ih =>
    intro h
    have hx := h x (List.mem_cons_self x xs)
    have hxs := ih (fun z hz => h z (List.mem_cons_of_mem x hz))
    simp [exMapM, Bind.bind, Except.bind, hx, hxs]

theorem sax_eq (bps : List ℚ) (data : List ℚ) (ws : Nat) :
    sax bps data ws =
      if ws = 0 then .error .valueError
      else
        match exMapM (firstBreak bps (qvariance data))
            ((arraySplit (scaleData data) ws).map svalMean) with
        | .error e => .error e
        | .ok locs =>
          match exMapM letterOf locs with
          | .error e => .error e
          | .ok chars => .ok chars := by
  by_cases h : ws = 0
  · simp [sax, h]
  · simp only [sax, if_neg h]
    cases hX : exMapM (firstBreak bps (qvariance data))
        ((arraySplit (scaleData data) ws).map svalMean) with
    | error e => simp [Bind.bind, Except.bind, hX]
    | ok locs =>
      cases hY : exMapM letterOf locs with
      | error e => simp [Bind.bind, Except.bind, hX, hY]
      | ok chars => simp [Bind.bind, Except.bind, hX, hY]

theorem sax_error_kinds (bps : List ℚ) (data : List ℚ) (ws : Nat) (e : DErr)
    (h : sax bps data ws = .error e) :
    e = .saxIndex ∨ e = .letterIndex ∨ e = .valueError := by
  rw [sax_eq] at h
  by_cases hws : ws = 0
  · rw [if_pos hws] at h
    cases h
    right; right; rfl
  · rw [if_neg hws] at h
    cases hX : exMapM (firstBreak bps (qvariance data))
        ((arraySplit (scaleData data) ws).map svalMean) with
    | error e1 =>
      rw [hX] at h
      cases h
      obtain ⟨m, _, hm⟩ := exMapM_error _ _ _ hX
      cases m with
      | nan =>
        simp only [firstBreak] at hm
        cases hm
        left; rfl
      | fin d =>
        simp only [firstBreak] at hm
        cases hfi : (bps.findIdx? (fun b => sigmaGT b (qvariance data) d)) with
        | some i => rw [hfi] at hm; cases hm
        | none => rw [hfi] at hm; cases hm
    | ok locs =>
      simp only [hX] at h
      cases hY : exMapM letterOf locs with
      | error e1 =>
        simp only [hY] at h
        cases h
        obtain ⟨i, _, hi⟩ := exMapM_error _ _ _ hY
        simp only [letterOf] at hi
        cases hg : asciiLetters.get? i with
        | some c => rw [hg] at hi; cases hi
        | none =>
          rw [hg] at hi
          cases hi
          right; left; rfl
      | ok chars => simp only [hY] at h; cases h

/-- Claim C7: with a positive slice size, `_get_words` raises the
data-alignment error exactly when the window's length is not evenly
divisible by `feature_size`; on aligned input any successful result is the
list of `len(window)/feature_size` SAX words of the contiguous,
non-overlapping slices in arrival order. -/
theorem get_words_alignment (bps : List ℚ) (w : List ℚ) (f ws : Nat)
    (hf : 0 < f) :
    ((get_words bps w f ws = .error .alignment) ↔ ¬ (w.length % f = 0)) ∧
      (w.length % f = 0 → ∀ out, get_words bps w f ws = .ok out →
        out.length = w.length / f ∧
        ∀ i (hi : i < out.length),
          sax bps ((w.drop (i * f)).take f) ws = .ok (out.get ⟨i, hi⟩)) := by
  have hf0 : ¬ (f = 0) := by omega
  constructor
  · constructor
    · intro h
      intro hdvd
      unfold get_words at h
      rw [if_neg hf0, if_neg (by simpa using hdvd)] at h
      obtain ⟨i, _, hi⟩ := exMapM_error _ _ _ h
      rcases sax_error_kinds _ _ _ _ hi with h1 | h1 | h1 <;> cases h1
    · intro hnd
      unfold get_words
      rw [if_neg hf0, if_pos (by simpa using hnd)]
  · intro hdvd out hout
    unfold get_words at hout
    rw [if_neg hf0, if_neg (by simpa using hdvd)] at hout
    obtain ⟨hlen, hpt⟩ := exMapM_ok _ _ _ hout
    have hrl : (List.range (w.length / f)).length = w.length / f := by simp
    refine ⟨by rw [hlen, hrl], ?_⟩
    intro i hi
    have hi2 : i < (List.range (w.length / f)).length := by
      rw [hrl]; omega
    have := hpt i hi2 hi
    simpa using this

/-- Witness for C7: a window of length 3 with slice size 2 raises exactly
the alignment error. -/
theorem get_words_alignment_witness :
    get_words [-1, 0, 1] [1, 2, 3] 2 2 = .error .alignment :=
  ((get_words_alignment [-1, 0, 1] [1, 2, 3] 2 2 (by norm_num)).1).mpr
    (by norm_num)

theorem length_takeChunks {α : Type} (ss : List Nat) (l : List α) :
    (takeChunks ss l).length = ss.length := by
  induction ss generalizing l with
  | nil => simp [takeChunks]
  | cons s ss ih => simp [takeChunks, ih]

theorem arraySplit_length {α : Type} (l : List α) (n : Nat) :
    (arraySplit l n).length = n := by
  simp [arraySplit, length_takeChunks, splitSizes]

theorem takeChunks_subset {α : Type} (ss : List Nat) (l : List α) :
    ∀ sec ∈ takeChunks ss l, sec ⊆ l := by
  induction ss generalizing l with
  | nil => simp [takeChunks]
  | cons s ss ih =>
    intro sec hsec
    simp only [takeChunks, List.mem_cons] at hsec
    rcases hsec with h | h
    · rw [h]; exact List.take_subset s l
    · exact fun x hx => List.drop_subset s l (ih (l.drop s) sec h hx)

theorem takeChunks_ne_nil {α : Type} (ss : List Nat) (l : List α)
    (h1 : ∀ s ∈ ss, 1 ≤ s) (h2 : ss.sum ≤ l.length) :
    ∀ sec ∈ takeChunks ss l, sec ≠ [] := by
  induction ss generalizing l with
  | nil => simp [takeChunks]
  | cons s ss ih =>
    intro sec hsec
    simp only [takeChunks, List.mem_cons] at hsec
    rcases hsec with h | h
    · rw [h]
      have hs : 1 ≤ s := h1 s (List.mem_cons_self s ss)
      have hl : 1 ≤ l.length := by
        have := h2
        simp only [List.sum_cons] at this
        omega
      intro hnil
      have := congrArg List.length hnil
      simp only [List.length_take, List.length_nil] at this
      omega
    · refine ih (l.drop s) (fun z hz => h1 z (List.mem_cons_of_mem s hz)) ?_ sec h
      simp only [List.sum_cons] at h2
      simp only [List.length_drop]
      omega

theorem splitSizes_pos (L n : Nat) (h : n ≤ L) :
    ∀ s ∈ splitSizes L n, 1 ≤ s := by
  intro s hs
  simp only [splitSizes, List.mem_map, List.mem_range] at hs
  obtain ⟨i, hi, rfl⟩ := hs
  have hn : 0 < n := by omega
  have : 1 ≤ L / n := (Nat.one_le_div_iff hn).mpr h
  split <;> omega

theorem sizes_sum_aux (n r q L : Nat) (hr : r < n) (hq : n * q + r = L) :
    ((List.range n).map (fun i => if i < r then q + 1 else q)).sum = L := by
  rw [show n = r + (n - r) by omega, List.range_add, List.map_append,
    List.sum_append]
  have h1 : ((List.range r).map (fun i => if i < r then q + 1 else q)) =
      List.replicate r (q + 1) := by
    refine List.eq_replicate_iff.mpr ⟨by simp, ?_⟩
    intro b hb
    obtain ⟨i, hi, rfl⟩ := List.mem_map.mp hb
    simp only [List.mem_range] at hi
    rw [if_pos hi]
  have h2 : (((List.range (n - r)).map (fun x => r + x)).map
      (fun i => if i < r then q + 1 else q)) =
      List.replicate (n - r) q := by
    refine List.eq_replicate_iff.mpr ⟨by simp, ?_⟩
    intro b hb
    rw [List.map_map] at hb
    obtain ⟨x, hx, rfl⟩ := List.mem_map.mp hb
    simp [Function.comp, if_neg (by omega : ¬ (r + x < r))]
  rw [h1, h2, List.sum_replicate, List.sum_replicate]
  have hle : r * q ≤ n * q := Nat.mul_le_mul_right _ (le_of_lt hr)
  simp only [smul_eq_mul, Nat.sub_mul, Nat.mul_succ]
  omega

theorem splitSizes_sum (L n : Nat) (hn : 0 < n) : (splitSizes L n).sum = L := by
  unfold splitSizes
  exact sizes_sum_aux n (L % n) (L / n) L (Nat.mod_lt _ hn) (Nat.div_add_mod L n)

theorem scaleData_length (data : List ℚ) :
    (scaleData data).length = data.length := by
  unfold scaleData
  split <;> simp

/-- Claim C6: on an input of length at least `word_size` with nonzero
variance (with a positive word size, and breakpoints that fit in the
52-letter table, as with the code's alphabet size 4), `_sax` succeeds and
its word is exactly the claim's description `saxSpec`: `word_size`
characters, one per as-equal-as-possible partition, each the letter of the
first breakpoint strictly greater than the partition mean (with `+inf` as
the final sentinel breakpoint). -/
theorem sax_word (bps : List ℚ) (data : List ℚ) (ws : Nat)
    (hws : 0 < ws) (hlen : ws ≤ data.length) (hvar : qvariance data ≠ 0)
    (hbps : bps.length < 52) :
    sax bps data ws = .ok (saxSpec bps data ws) ∧
      (saxSpec bps data ws).length = ws := by
  have hscale : scaleData data =
      (data.map (fun x => x - qmean data)).map (fun d => SVal.fin d) := by
    simp [scaleData, hvar]
  have hslen : (scaleData data).length = data.length := scaleData_length data
  have hsecne : ∀ sec ∈ arraySplit (scaleData data) ws, sec ≠ [] := by
    refine takeChunks_ne_nil _ _ (splitSizes_pos _ _ (by omega)) ?_
    rw [splitSizes_sum _ _ hws]
  have hsecfin : ∀ sec ∈ arraySplit (scaleData data) ws, ∀ v ∈ sec,
      v ≠ SVal.nan := by
    intro sec hsec v hv
    have hvmem : v ∈ scaleData data := takeChunks_subset _ _ sec hsec hv
    rw [hscale] at hvmem
    obtain ⟨d, _, rfl⟩ := List.mem_map.mp hvmem
    simp
  have hfb : ∀ m ∈ (arraySplit (scaleData data) ws).map svalMean,
      firstBreak bps (qvariance data) m =
        .ok (locOf bps (qvariance data) m) := by
    intro m hm
    obtain ⟨sec, hsec, rfl⟩ := List.mem_map.mp hm
    have hne := hsecne sec hsec
    have hnan : ¬ (sec.isEmpty ∨ SVal.nan ∈ sec) := by
      simp only [List.isEmpty_iff, not_or]
      exact ⟨hne, fun hmem => hsecfin sec hsec _ hmem rfl⟩
    unfold svalMean
    rw [if_neg hnan]
    unfold firstBreak locOf
    cases hfi : bps.findIdx? (fun b => sigmaGT b (qvariance data)
        (qmean (sec.map (fun v => match v with | SVal.fin d => d | SVal.nan => 0)))) with
    | some i => simp [hfi]
    | none => simp [hfi]
  have h1 := exMapM_ok_of_forall (firstBreak bps (qvariance data))
    (locOf bps (qvariance data)) _ hfb
  have hloclt : ∀ lc ∈ ((arraySplit (scaleData data) ws).map svalMean).map
      (locOf bps (qvariance data)), lc < 52 := by
    intro lc hlc
    obtain ⟨m, _, rfl⟩ := List.mem_map.mp hlc
    cases m with
    | nan => simp [locOf]
    | fin d =>
      simp only [locOf]
      cases hfi : bps.findIdx? (fun b => sigmaGT b (qvariance data) d) with
      | some i =>
        have := (List.findIdx?_eq_some_iff_findIdx_eq.mp hfi).1
        simp only [hfi, Option.getD_some]
        omega
      | none => simp only [hfi, Option.getD_none]; omega
  have hlet : ∀ lc ∈ ((arraySplit (scaleData data) ws).map svalMean).map
      (locOf bps (qvariance data)),
      letterOf lc = .ok (asciiLetters.getD lc 'a') := by
    intro lc hlc
    have hlt : lc < 52 := hloclt lc hlc
    have hlen52 : asciiLetters.length = 52 := by decide
    unfold letterOf
    cases hg : asciiLetters.get? lc with
    | none =>
      exfalso
      rw [List.get?_eq_none] at hg
      omega
    | some c =>
      rw [List.getD_eq_getElem?_getD, ← List.get?_eq_getElem?, hg]
      rfl
  have h2 := exMapM_ok_of_forall letterOf (fun lc => asciiLetters.getD lc 'a')
    _ hlet
  constructor
  · rw [sax_eq, if_neg (by omega : ¬ ws = 0)]
    simp only [h1, h2]
    simp [saxSpec, List.map_map, Function.comp]
  · simp [saxSpec, arraySplit_length]

/-- Witness for C6 at `data = [1, 2, 3, 4]`, `word_size = 2` and
stand-in breakpoints: the SAX word has length 2. -/
theorem sax_word_witness :
    sax [-1, 0, 1] [1, 2, 3, 4] 2 = .ok (saxSpec [-1, 0, 1] [1, 2, 3, 4] 2) ∧
      (saxSpec [-1, 0, 1] [1, 2, 3, 4] 2).length = 2 :=
  sax_word [-1, 0, 1] [1, 2, 3, 4] 2 (by norm_num) (by norm_num)
    (by norm_num [qvariance, qmean]) (by norm_num)

theorem setCell_length (m : List (List ℚ)) (i j : Nat) (v : ℚ) :
    (setCell m i j v).length = m.length := by
  simp [setCell]

theorem setCell_row_length (m : List (List ℚ)) (i j : Nat) (v : ℚ) (a : Nat) :
    ((setCell m i j v).getD a []).length = (m.getD a []).length := by
  unfold setCell
  by_cases hai : i = a
  · subst hai
    by_cases hi : i < m.length
    · rw [List.getD_eq_getElem?_getD, List.getElem?_set_self hi]
      simp [List.getD_eq_getElem?_getD]
    · rw [List.set_eq_of_length_le (by omega)]
  · rw [List.getD_eq_getElem?_getD, List.getElem?_set_ne hai,
      ← List.getD_eq_getElem?_getD]

theorem getD_set_self {α : Type} (l : List α) (i : Nat) (x d : α)
    (hi : i < l.length) : (l.set i x).getD i d = x := by
  rw [List.getD_eq_getElem?_getD, List.getElem?_set_self hi]
  rfl

theorem getD_set_ne {α : Type} (l : List α) (i a : Nat) (x d : α)
    (h : i ≠ a) : (l.set i x).getD a d = l.getD a d := by
  rw [List.getD_eq_getElem?_getD, List.getElem?_set_ne h,
    ← List.getD_eq_getElem?_getD]

theorem setCell_get_same (m : List (List ℚ)) (i j : Nat) (v : ℚ)
    (hi : i < m.length) (hj : j < (m.getD i []).length) :
    ((setCell m i j v).getD i []).getD j 0 = v := by
  unfold setCell
  rw [getD_set_self m i ((m.getD i []).set j v) [] hi,
    getD_set_self (m.getD i []) j v 0 hj]

theorem setCell_get_other (m : List (List ℚ)) (i j a b : Nat) (v : ℚ)
    (h : ¬ (a = i ∧ b = j)) :
    ((setCell m i j v).getD a []).getD b 0 = (m.getD a []).getD b 0 := by
  unfold setCell
  by_cases hai : i = a
  · subst hai
    have hbj : j ≠ b := by
      intro hjb
      exact h ⟨rfl, hjb.symm⟩
    by_cases hi : i < m.length
    · rw [getD_set_self m i ((m.getD i []).set j v) [] hi,
        getD_set_ne (m.getD i []) j b v 0 hbj]
    · rw [List.set_eq_of_length_le (by omega)]
  · rw [getD_set_ne m i a ((m.getD i []).set j v) [] hai]

theorem cell_unique (size a b i j : Nat) (hb : b < size) (hj : j < size)
    (h : a * size + b = i * size + j) : a = i ∧ b = j := by
  have hs : 0 < size := by omega
  have h1 : (b + a * size) % size = (j + i * size) % size := by
    rw [show b + a * size = a * size + b by ring,
      show j + i * size = i * size + j by ring, h]
  rw [Nat.add_mul_mod_self_right, Nat.add_mul_mod_self_right,
    Nat.mod_eq_of_lt hb, Nat.mod_eq_of_lt hj] at h1
  subst h1
  have h2 : a * size = i * size := by omega
  exact ⟨Nat.eq_of_mul_eq_mul_right hs h2, rfl⟩

theorem fillLoop_length (size : Nat) :
    ∀ (vals : List ℚ) (m : List (List ℚ)) (i j : Nat),
      (fillLoop size vals m i j).length = m.length := by
  intro vals
  induction vals with
  | nil => intro m i j; simp [fillLoop]
  | cons v rest ih =>
    intro m i j
    simp only [fillLoop]
    split
    · rw [ih, setCell_length]
    · rw [ih, setCell_length]

theorem fillLoop_row_length (size : Nat) :
    ∀ (vals : List ℚ) (m : List (List ℚ)) (i j a : Nat),
      ((fillLoop size vals m i j).getD a []).length = (m.getD a []).length := by
  intro vals
  induction vals with
  | nil => intro m i j a; simp [fillLoop]
  | cons v rest ih =>
    intro m i j a
    simp only [fillLoop]
    split
    · rw [ih, setCell_row_length]
    · rw [ih, setCell_row_length]

theorem fillLoop_get (size : Nat) (hs : 0 < size) :
    ∀ (vals : List ℚ) (m : List (List ℚ)) (i j : Nat),
      m.length = size → (∀ a2, a2 < size → (m.getD a2 []).length = size) →
      i * size + j % size + vals.length ≤ size * size →
      ∀ a b, a < size → b < size →
        ((fillLoop size vals m i j).getD a []).getD b 0 =
          if i * size + j % size ≤ a * size + b ∧
              a * size + b < i * size + j % size + vals.length
          then vals.getD (a * size + b - (i * size + j % size)) 0
          else (m.getD a []).getD b 0 := by
  intro vals
  induction vals with
  | nil =>
    intro m i j hm hrows hbound a b ha hb
    simp only [fillLoop, List.length_nil]
    rw [if_neg (by omega)]
  | cons v rest ih =>
    intro m i j hm hrows hbound a b ha hb
    have hj1 : j % size < size := Nat.mod_lt _ hs
    have hm1len : (setCell m i (j % size) v).length = size := by
      rw [setCell_length, hm]
    have hm1rows : ∀ a2, a2 < size →
        ((setCell m i (j % size) v).getD a2 []).length = size := by
      intro a2 ha2
      rw [setCell_row_length]
      exact hrows a2 ha2
    have hpos : i * size + j % size < size * size := by
      simp only [List.length_cons] at hbound
      omega
    have hi_lt : i < size := by
      by_contra hcon
      push_neg at hcon
      have : size * size ≤ i * size := Nat.mul_le_mul_right size hcon
      omega
    have habs : a * size + b < size * size := by
      have h1 : a * size ≤ (size - 1) * size := Nat.mul_le_mul_right size (by omega)
      have h2 : (size - 1) * size + size = size * size := by
        rw [Nat.sub_mul, Nat.one_mul]
        have : size ≤ size * size := Nat.le_mul_of_pos_left size hs
        omega
      omega
    have hcellu : a * size + b = i * size + j % size → a = i ∧ b = j % size :=
      cell_unique size a b i (j % size) hb hj1
    have hcellu2 : ¬ (a * size + b = i * size + j % size) →
        ¬ (a = i ∧ b = j % size) := by
      intro hne hcon
      exact hne (by rw [hcon.1, hcon.2])
    simp only [fillLoop]
    by_cases hwrap : j % size + 1 = size
    · rw [if_pos hwrap]
      have hmod : (j % size + 1) % size = 0 := by
        rw [hwrap, Nat.mod_self]
      have hnext : (i + 1) * size + (j % size + 1) % size =
          i * size + j % size + 1 := by
        rw [hmod, Nat.succ_mul]
        omega
      have hrec := ih (setCell m i (j % size) v) (i + 1) (j % size + 1)
        hm1len hm1rows
        (by rw [hnext]; simp only [List.length_cons] at hbound; omega) a b ha hb
      rw [hrec, hnext]
      by_cases hab : a * size + b = i * size + j % size
      · obtain ⟨hai, hbj⟩ := hcellu hab
        subst hai
        subst hbj
        rw [if_neg (by omega), if_pos (by simp only [List.length_cons]; omega)]
        rw [setCell_get_same m a (j % size) v (by omega)
          (by rw [hrows a hi_lt]; exact hj1)]
        have h0 : a * size + j % size - (a * size + j % size) = 0 := by omega
        rw [h0, List.getD_cons_zero]
      · by_cases hin : i * size + j % size + 1 ≤ a * size + b ∧
            a * size + b < i * size + j % size + 1 + rest.length
        · rw [if_pos hin, if_pos (by simp only [List.length_cons]; omega)]
          have hd : a * size + b - (i * size + j % size) =
              (a * size + b - (i * size + j % size + 1)) + 1 := by omega
          rw [hd, List.getD_cons_succ]
        · rw [if_neg hin, if_neg (by simp only [List.length_cons]; omega)]
          exact setCell_get_other m i (j % size) a b v (hcellu2 hab)
    · rw [if_neg hwrap]
      have hmod : (j % size + 1) % size = j % size + 1 :=
        Nat.mod_eq_of_lt (by omega)
      have hnext : i * size + (j % size + 1) % size =
          i * size + j % size + 1 := by
        rw [hmod]
        omega
      have hrec := ih (setCell m i (j % size) v) i (j % size + 1)
        hm1len hm1rows
        (by rw [hnext]; simp only [List.length_cons] at hbound; omega) a b ha hb
      rw [hrec, hnext]
      by_cases hab : a * size + b = i * size + j % size
      · obtain ⟨hai, hbj⟩ := hcellu hab
        subst hai
        subst hbj
        rw [if_neg (by omega), if_pos (by simp only [List.length_cons]; omega)]
        rw [setCell_get_same m a (j % size) v (by omega)
          (by rw [hrows a hi_lt]; exact hj1)]
        have h0 : a * size + j % size - (a * size + j % size) = 0 := by omega
        rw [h0, List.getD_cons_zero]
      · by_cases hin : i * size + j % size + 1 ≤ a * size + b ∧
            a * size + b < i * size + j % size + 1 + rest.length
        · rw [if_pos hin, if_pos (by simp only [List.length_cons]; omega)]
          have hd : a * size + b - (i * size + j % size) =
              (a * size + b - (i * size + j % size + 1)) + 1 := by omega
          rw [hd, List.getD_cons_succ]
        · rw [if_neg hin, if_neg (by simp only [List.length_cons]; omega)]
          exact setCell_get_other m i (j % size) a b v (hcellu2 hab)

theorem le_listMax (l : List ℚ) (x : ℚ) (hx : x ∈ l) : x ≤ listMax l := by
  induction l with
  | nil => simp at hx
  | cons a t ih =>
    cases t with
    | nil =>
      have : x = a := by simpa using hx
      subst this
      simp [listMax]
    | cons b t2 =>
      rcases List.mem_cons.mp hx with h | h
      · subst h
        exact le_max_left _ _
      · exact le_trans (ih h) (le_max_right _ _)

theorem zerosMatrix_row (n a : Nat) (ha : a < n) :
    (zerosMatrix n).getD a [] = List.replicate n 0 := by
  unfold zerosMatrix
  rw [List.getD_eq_getElem?_getD, List.getElem?_replicate, if_pos ha]
  rfl

theorem build_bitmap_eq (keys : List (List Char)) (f : List Char → ℚ) :
    build_bitmap keys f =
      fillLoop (Nat.sqrt keys.length)
        ((List.insertionSort (· ≤ ·) keys).map
          (fun k => if listMax ((List.insertionSort (· ≤ ·) keys).map f) ≠ 0
            then f k / listMax ((List.insertionSort (· ≤ ·) keys).map f)
            else 0))
        (zerosMatrix (Nat.sqrt keys.length)) 0 0 := rfl

theorem getD_map_zero (l : List (List Char)) (g : List Char → ℚ) (n : Nat)
    (h : n < l.length) : (l.map g).getD n 0 = g (l.getD n []) := by
  rw [List.getD_eq_getElem?_getD, List.getElem?_map,
    List.getElem?_eq_getElem h, List.getD_eq_getElem _ _ h]
  rfl

theorem getD_mem_of_lt {α : Type} (l : List α) (n : Nat) (d : α)
    (h : n < l.length) : l.getD n d ∈ l := by
  rw [List.getD_eq_getElem _ _ h]
  exact List.getElem_mem h

/-- Claim C4: for a nonempty frequency table of perfect-square size with
nonnegative entries (counts), the bitmap divides every entry by the
maximum entry (all zeros when the maximum is 0), every cell lies in
`[0, 1]`, and cell `(a, b)` holds the normalized value of the
`(a * side + b)`-th key in the lexicographically sorted key order —
row-major layout. -/
theorem build_bitmap_cells (keys : List (List Char)) (f : List Char → ℚ)
    (hsq : Nat.sqrt keys.length * Nat.sqrt keys.length = keys.length)
    (hne : keys ≠ []) (hf : ∀ c ∈ keys, 0 ≤ f c) :
    (build_bitmap keys f).length = Nat.sqrt keys.length ∧
      (∀ r ∈ build_bitmap keys f, r.length = Nat.sqrt keys.length) ∧
      ∀ a b, a < Nat.sqrt keys.length → b < Nat.sqrt keys.length →
        (((build_bitmap keys f).getD a []).getD b 0 =
            (if listMax ((List.insertionSort (· ≤ ·) keys).map f) ≠ 0 then
              f ((List.insertionSort (· ≤ ·) keys).getD
                  (a * Nat.sqrt keys.length + b) []) /
                listMax ((List.insertionSort (· ≤ ·) keys).map f)
            else 0)) ∧
          0 ≤ ((build_bitmap keys f).getD a []).getD b 0 ∧
          ((build_bitmap keys f).getD a []).getD b 0 ≤ 1 := by
  have hkpos : 0 < keys.length := List.length_pos.mpr hne
  have hs : 0 < Nat.sqrt keys.length := by
    rcases Nat.eq_zero_or_pos (Nat.sqrt keys.length) with h | h
    · rw [h] at hsq; omega
    · exact h
  have hol : (List.insertionSort (· ≤ ·) keys).length = keys.length :=
    List.length_insertionSort _ keys
  have hzl : (zerosMatrix (Nat.sqrt keys.length)).length =
      Nat.sqrt keys.length := by
    simp [zerosMatrix]
  have hzrows : ∀ a2, a2 < Nat.sqrt keys.length →
      ((zerosMatrix (Nat.sqrt keys.length)).getD a2 []).length =
        Nat.sqrt keys.length := by
    intro a2 ha2
    rw [zerosMatrix_row _ _ ha2]
    simp
  have hvl : ((List.insertionSort (· ≤ ·) keys).map
      (fun k => if listMax ((List.insertionSort (· ≤ ·) keys).map f) ≠ 0
        then f k / listMax ((List.insertionSort (· ≤ ·) keys).map f)
        else 0)).length = keys.length := by
    rw [List.length_map, hol]
  refine ⟨?_, ?_, ?_⟩
  · rw [build_bitmap_eq, fillLoop_length, hzl]
  · intro r hr
    rw [build_bitmap_eq] at hr
    obtain ⟨⟨idx, hidx⟩, hget⟩ := List.mem_iff_get.mp hr
    have hidx2 : idx < Nat.sqrt keys.length := by
      rw [fillLoop_length, hzl] at hidx
      exact hidx
    have hrow := fillLoop_row_length (Nat.sqrt keys.length)
      ((List.insertionSort (· ≤ ·) keys).map
        (fun k => if listMax ((List.insertionSort (· ≤ ·) keys).map f) ≠ 0
          then f k / listMax ((List.insertionSort (· ≤ ·) keys).map f)
          else 0))
      (zerosMatrix (Nat.sqrt keys.length)) 0 0 idx
    have hrq : r.length = ((zerosMatrix (Nat.sqrt keys.length)).getD idx []).length := by
      rw [← hget, ← hrow, List.getD_eq_getElem _ _ hidx]
      simp [List.get_eq_getElem]
    rw [hrq]
    exact hzrows idx hidx2
  · intro a b ha hb
    have habs : a * Nat.sqrt keys.length + b <
        Nat.sqrt keys.length * Nat.sqrt keys.length := by
      have h1 : a * Nat.sqrt keys.length ≤
          (Nat.sqrt keys.length - 1) * Nat.sqrt keys.length :=
        Nat.mul_le_mul_right _ (by omega)
      have h2 : (Nat.sqrt keys.length - 1) * Nat.sqrt keys.length +
          Nat.sqrt keys.length = Nat.sqrt keys.length * Nat.sqrt keys.length := by
        rw [Nat.sub_mul, Nat.one_mul]
        have h3 : Nat.sqrt keys.length ≤
            Nat.sqrt keys.length * Nat.sqrt keys.length :=
          Nat.le_mul_of_pos_left (Nat.sqrt keys.length) hs
        omega
      omega
    have hcell := fillLoop_get (Nat.sqrt keys.length) hs
      ((List.insertionSort (· ≤ ·) keys).map
        (fun k => if listMax ((List.insertionSort (· ≤ ·) keys).map f) ≠ 0
          then f k / listMax ((List.insertionSort (· ≤ ·) keys).map f)
          else 0))
      (zerosMatrix (Nat.sqrt keys.length)) 0 0 hzl hzrows
      (by simp only [Nat.zero_mul, Nat.zero_mod, Nat.zero_add]; rw [hvl]; omega)
      a b ha hb
    rw [← build_bitmap_eq] at hcell
    simp only [Nat.zero_mul, Nat.zero_mod, Nat.zero_add, Nat.add_zero,
      Nat.sub_zero] at hcell
    rw [if_pos ⟨Nat.zero_le _, by rw [hvl]; omega⟩] at hcell
    have hablt : a * Nat.sqrt keys.length + b <
        (List.insertionSort (· ≤ ·) keys).length := by
      rw [hol]; omega
    rw [getD_map_zero _ _ _ hablt] at hcell
    have hmemk : (List.insertionSort (· ≤ ·) keys).getD
        (a * Nat.sqrt keys.length + b) [] ∈ keys :=
      (List.perm_insertionSort (· ≤ ·) keys).mem_iff.mp
        (getD_mem_of_lt _ _ _ hablt)
    have hfk : 0 ≤ f ((List.insertionSort (· ≤ ·) keys).getD
        (a * Nat.sqrt keys.length + b) []) := hf _ hmemk
    have hfle : f ((List.insertionSort (· ≤ ·) keys).getD
        (a * Nat.sqrt keys.length + b) []) ≤
        listMax ((List.insertionSort (· ≤ ·) keys).map f) := by
      refine le_listMax _ _ ?_
      exact List.mem_map.mpr ⟨_, getD_mem_of_lt _ _ _ hablt, rfl⟩
    refine ⟨hcell, ?_, ?_⟩
    · rw [hcell]
      by_cases hmax : listMax ((List.insertionSort (· ≤ ·) keys).map f) ≠ 0
      · rw [if_pos hmax]
        have hmaxpos : 0 < listMax ((List.insertionSort (· ≤ ·) keys).map f) := by
          rcases lt_or_eq_of_le (le_trans hfk hfle) with h | h
          · exact h
          · exact absurd h.symm hmax
        exact div_nonneg hfk (le_of_lt hmaxpos)
      · rw [if_neg hmax]
    · rw [hcell]
      by_cases hmax : listMax ((List.insertionSort (· ≤ ·) keys).map f) ≠ 0
      · rw [if_pos hmax]
        have hmaxpos : 0 < listMax ((List.insertionSort (· ≤ ·) keys).map f) := by
          rcases lt_or_eq_of_le (le_trans hfk hfle) with h | h
          · exact h
          · exact absurd h.symm hmax
        exact (div_le_one hmaxpos).mpr hfle
      · rw [if_neg hmax]
        norm_num

/-- Witness for C4 at a concrete 4-entry table: the cell holding the
normalized count of the key `'c'` lies in the unit interval. -/
theorem build_bitmap_cells_witness :
    0 ≤ ((build_bitmap [['a'], ['b'], ['c'], ['d']]
        (fun c => if c = ['c'] then 2 else if c = ['d'] then 2 else
          if c = ['b'] then 1 else 0)).getD 1 []).getD 0 0 ∧
      ((build_bitmap [['a'], ['b'], ['c'], ['d']]
        (fun c => if c = ['c'] then 2 else if c = ['d'] then 2 else
          if c = ['b'] then 1 else 0)).getD 1 []).getD 0 0 ≤ 1 :=
  ((build_bitmap_cells [['a'], ['b'], ['c'], ['d']]
    (fun c => if c = ['c'] then 2 else if c = ['d'] then 2 else
      if c = ['b'] then 1 else 0)
    (by norm_num) (by decide)
    (by intro c hc; fin_cases hc <;> (simp only []; split_ifs <;> norm_num))).2.2 1 0
    (by norm_num) (by norm_num)).2

theorem dequeAppend_eq (m : Nat) (l : List ℚ) (x : ℚ) :
    dequeAppend m l x = (l ++ [x]).drop (l.length + 1 - m) := by
  unfold dequeAppend
  by_cases h0 : m = 0
  · subst h0
    rw [if_pos rfl]
    rw [List.drop_of_length_le (by simp)]
  · by_cases h1 : m ≤ l.length
    · rw [if_neg h0, if_pos h1]
    · rw [if_neg h0, if_neg h1]
      have h2 : l.length + 1 - m = 0 := by omega
      rw [h2, List.drop_zero]

theorem dequeAppend_length (m : Nat) (l : List ℚ) (x : ℚ) :
    (dequeAppend m l x).length = min (l.length + 1) m := by
  rw [dequeAppend_eq, List.length_drop, List.length_append]
  simp only [List.length_cons, List.length_nil]
  omega

/-- Invariant of the two windows after the samples `pre` have been
ingested into a fresh detector with capacities `L` (lead) and `G` (lag):
the window lengths are determined by the ingestion count, never exceed the
capacities, and the concatenation `lag ++ lead` is exactly the most recent
`lead.length + lag.length` samples in arrival order. -/
def WindowInv (L G : Nat) (pre : List ℚ) (s : AssumptionFreeAA) : Prop :=
  s.lead_window_size = L ∧ s.lag_window_size = G ∧
    s.lead_window.length = min pre.length L ∧
    s.lag_window.length = min (pre.length - L) G ∧
    s.lag_window ++ s.lead_window =
      pre.drop (pre.length - (s.lead_window.length + s.lag_window.length))

theorem ingestOne_step (L G : Nat) (hL : 0 < L) (pre : List ℚ)
    (s : AssumptionFreeAA) (x : ℚ) (h : WindowInv L G pre s) :
    ∃ s2, ingestOne s x = .ok s2 ∧ WindowInv L G (pre ++ [x]) s2 ∧
      s2.word_size = s.word_size ∧ s2.window_size = s.window_size ∧
      s2.recursion_level = s.recursion_level ∧
      s2.last_timestamp = s.last_timestamp := by
  obtain ⟨hLs, hGs, hlead, hlag, hsuffix⟩ := h
  by_cases hfull : s.lead_window.length = s.lead_window_size
  · have hsl : s.lead_window.length = L := by rw [hfull, hLs]
    have hLn : L ≤ pre.length := by
      rw [hsl] at hlead
      omega
    cases hlw : s.lead_window with
    | nil =>
      exfalso
      rw [hlw] at hsl
      simp only [List.length_nil] at hsl
      omega
    | cons y rest =>
      have hrest : rest.length = L - 1 := by
        rw [hlw] at hsl
        simp only [List.length_cons] at hsl
        omega
      refine ⟨{ s with
          lag_window := dequeAppend s.lag_window_size s.lag_window y,
          lead_window := dequeAppend s.lead_window_size rest x },
        ?_, ?_, rfl, rfl, rfl, rfl⟩
      · unfold ingestOne
        rw [if_pos hfull, hlw]
      · have hleadlen : (dequeAppend s.lead_window_size rest x).length = L := by
          rw [dequeAppend_length, hLs]
          omega
        have hlaglen : (dequeAppend s.lag_window_size s.lag_window y).length =
            min (pre.length + 1 - L) G := by
          rw [dequeAppend_length, hGs]
          omega
        refine ⟨hLs, hGs, ?_, ?_, ?_⟩
        · dsimp only
          rw [hleadlen, List.length_append]
          simp only [List.length_cons, List.length_nil]
          omega
        · dsimp only
          rw [hlaglen, List.length_append]
          simp only [List.length_cons, List.length_nil]
        · dsimp only
          rw [hleadlen, hlaglen]
          rw [dequeAppend_eq, dequeAppend_eq, hrest, hLs, hGs]
          rw [show L - 1 + 1 - L = 0 by omega, List.drop_zero]
          rw [← List.append_assoc]
          rw [← List.drop_append_of_le_length (by
            simp only [List.length_append, List.length_cons, List.length_nil]
            omega)]
          rw [List.append_assoc, List.singleton_append, ← hlw, hsuffix,
            List.drop_drop]
          rw [List.drop_append_of_le_length (by
            simp only [List.length_append, List.length_cons, List.length_nil]
            omega)]
          congr 1
          congr 1
          rw [hsl] at hlead
          simp only [List.length_append, List.length_cons, List.length_nil]
          omega
  · have hlt : pre.length < L := by
      rw [hLs] at hfull
      rcases Nat.lt_or_ge pre.length L with h | h
      · exact h
      · exfalso
        exact hfull (by omega)
    have hn : s.lead_window.length = pre.length := by omega
    have hlagzero : s.lag_window.length = 0 := by omega
    have hlagnil : s.lag_window = [] := List.length_eq_zero.mp hlagzero
    have hdrop0 : pre.length -
        (s.lead_window.length + s.lag_window.length) = 0 := by
      omega
    have hleadpre : s.lead_window = pre := by
      have h2 := hsuffix
      rw [hdrop0, List.drop_zero, hlagnil, List.nil_append] at h2
      exact h2
    refine ⟨{ s with
        lead_window := dequeAppend s.lead_window_size s.lead_window x },
      ?_, ?_, rfl, rfl, rfl, rfl⟩
    · unfold ingestOne
      rw [if_neg hfull]
    · have hleadlen : (dequeAppend s.lead_window_size s.lead_window x).length =
          min (pre.length + 1) L := by
        rw [dequeAppend_length, hLs]
        omega
      refine ⟨hLs, hGs, ?_, ?_, ?_⟩
      · dsimp only
        rw [hleadlen, List.length_append]
        simp only [List.length_cons, List.length_nil]
      · dsimp only
        rw [hlagzero, List.length_append]
        simp only [List.length_cons, List.length_nil]
        omega
      · dsimp only
        rw [hlagnil, List.nil_append, dequeAppend_eq, hLs]
        rw [show s.lead_window.length + 1 - L = 0 by omega, List.drop_zero,
          hleadpre]
        simp

theorem ingestAll_inv (L G : Nat) (hL : 0 < L) :
    ∀ (xs pre : List ℚ) (s : AssumptionFreeAA), WindowInv L G pre s →
      ∃ s2, ingestAll s xs = .ok s2 ∧ WindowInv L G (pre ++ xs) s2 := by
  intro xs
  induction xs with
  | nil =>
    intro pre s h
    exact ⟨s, rfl, by simpa using h⟩
  | cons x rest ih =>
    intro pre s h
    obtain ⟨s1, hstep, hinv1, _, _, _, _⟩ := ingestOne_step L G hL pre s x h
    obtain ⟨s2, hall, hinv2⟩ := ih (pre ++ [x]) s1 hinv1
    refine ⟨s2, ?_, ?_⟩
    · simp [ingestAll, Bind.bind, Except.bind, hstep, hall]
    · simpa [List.append_assoc] using hinv2

theorem initAFA_inv (w wf lf gf r : Nat) :
    WindowInv (lf * (wf * w)) (gf * (wf * w)) [] (initAFA w wf lf gf r) := by
  refine ⟨rfl, rfl, ?_, ?_, ?_⟩ <;> simp [initAFA]

/-- Claim C2: after every single-sample ingestion step the window lengths
never exceed their capacities (they are the exact `min` functions of the
ingestion count), the lag window followed by the lead window is exactly
the suffix of the most recent samples in arrival order, and when the lead
window is at capacity the new sample evicts the oldest lead sample into
the lag window, which drops its own oldest sample if it is at capacity. -/
theorem window_invariant (w wf lf gf r : Nat) (hL : 0 < lf * (wf * w)) :
    (∀ xs : List ℚ, ∃ s2,
      ingestAll (initAFA w wf lf gf r) xs = .ok s2 ∧
        s2.lead_window.length = min xs.length (lf * (wf * w)) ∧
        s2.lag_window.length =
          min (xs.length - lf * (wf * w)) (gf * (wf * w)) ∧
        s2.lead_window.length ≤ lf * (wf * w) ∧
        s2.lag_window.length ≤ gf * (wf * w) ∧
        s2.lag_window ++ s2.lead_window =
          xs.drop (xs.length -
            (s2.lead_window.length + s2.lag_window.length))) ∧
      (∀ (s : AssumptionFreeAA) (x y : ℚ) (rest : List ℚ),
        0 < s.lag_window_size →
        s.lag_window.length ≤ s.lag_window_size →
        s.lead_window = y :: rest →
        s.lead_window.length = s.lead_window_size →
        ingestOne s x = .ok { s with
          lead_window := rest ++ [x]
          lag_window :=
            if s.lag_window.length = s.lag_window_size
            then s.lag_window.drop 1 ++ [y]
            else s.lag_window ++ [y] }) := by
  constructor
  · intro xs
    obtain ⟨s2, hall, hinv⟩ := ingestAll_inv (lf * (wf * w)) (gf * (wf * w))
      hL xs [] _ (initAFA_inv w wf lf gf r)
    obtain ⟨hLs, hGs, hlead, hlag, hsuffix⟩ := hinv
    simp only [List.nil_append] at hlead hlag hsuffix
    refine ⟨s2, hall, hlead, hlag, by omega, by omega, hsuffix⟩
  · intro s x y rest hG hle hlw hfull
    unfold ingestOne
    rw [if_pos hfull, hlw]
    have hlead2 : dequeAppend s.lead_window_size rest x = rest ++ [x] := by
      rw [dequeAppend_eq]
      have h0 : rest.length + 1 - s.lead_window_size = 0 := by
        rw [← hfull, hlw]
        simp only [List.length_cons]
        omega
      rw [h0, List.drop_zero]
    have hlag2 : dequeAppend s.lag_window_size s.lag_window y =
        if s.lag_window.length = s.lag_window_size
        then s.lag_window.drop 1 ++ [y]
        else s.lag_window ++ [y] := by
      by_cases hc : s.lag_window.length = s.lag_window_size
      · rw [if_pos hc, dequeAppend_eq]
        have hd : s.lag_window.length + 1 - s.lag_window_size = 1 := by omega
        rw [hd, List.drop_append_of_le_length (by omega)]
      · rw [if_neg hc, dequeAppend_eq]
        have hd : s.lag_window.length + 1 - s.lag_window_size = 0 := by omega
        rw [hd, List.drop_zero]
    dsimp only
    rw [hlead2, hlag2]

/-- Witness for C2: ingesting five samples into a detector with lead and
lag capacities 2 leaves lead `[4, 5]` and lag `[2, 3]` — checked through
the length and suffix equations. -/
theorem window_invariant_witness :
    ∃ s2, ingestAll (initAFA 1 1 2 2 1) [1, 2, 3, 4, 5] = .ok s2 ∧
      s2.lead_window.length = min ([1, 2, 3, 4, 5] : List ℚ).length (2 * (1 * 1)) ∧
      s2.lag_window.length =
        min (([1, 2, 3, 4, 5] : List ℚ).length - 2 * (1 * 1)) (2 * (1 * 1)) ∧
      s2.lead_window.length ≤ 2 * (1 * 1) ∧
      s2.lag_window.length ≤ 2 * (1 * 1) ∧
      s2.lag_window ++ s2.lead_window =
        ([1, 2, 3, 4, 5] : List ℚ).drop
          (([1, 2, 3, 4, 5] : List ℚ).length -
            (s2.lead_window.length + s2.lag_window.length)) :=
  (window_invariant 1 1 2 2 1 (by norm_num)).1 [1, 2, 3, 4, 5]

theorem bothFull_iff (L G : Nat) (pre : List ℚ) (s : AssumptionFreeAA)
    (h : WindowInv L G pre s) :
    (s.lead_window.length = s.lead_window_size ∧
      s.lag_window.length = s.lag_window_size) ↔ L + G ≤ pre.length := by
  obtain ⟨hLs, hGs, hlead, hlag, _⟩ := h
  rw [hLs, hGs, hlead, hlag]
  constructor
  · rintro ⟨h1, h2⟩
    omega
  · intro hge
    constructor <;> omega

theorem detectLoop_count (bps : List ℚ) (L G : Nat) (hL : 0 < L) :
    ∀ (dps pre : List ℚ) (s : AssumptionFreeAA), WindowInv L G pre s →
      ∀ s2 res, detectLoop bps s dps = (s2, .ok res) →
        WindowInv L G (pre ++ dps) s2 ∧
          res.length = (pre.length + dps.length) - max pre.length (L + G - 1) := by
  intro dps
  induction dps with
  | nil =>
    intro pre s hinv s2 res h
    simp only [detectLoop, Prod.mk.injEq] at h
    obtain ⟨hs, hr⟩ := h
    cases hr
    subst hs
    refine ⟨by simpa using hinv, ?_⟩
    simp only [List.length_nil]
    omega
  | cons x rest ih =>
    intro pre s hinv s2 res h
    obtain ⟨s1, hstep, hinv1, _, _, _, _⟩ := ingestOne_step L G hL pre s x hinv
    simp only [detectLoop, hstep] at h
    have hpre1 : (pre ++ [x]).length = pre.length + 1 := by simp
    by_cases hfullc : s1.lead_window.length = s1.lead_window_size ∧
        s1.lag_window.length = s1.lag_window_size
    · have hthresh : L + G ≤ pre.length + 1 := by
        have := (bothFull_iff L G (pre ++ [x]) s1 hinv1).mp hfullc
        omega
      rw [maybeCycle, if_pos hfullc] at h
      cases hrc : runCycle bps s1 with
      | error e =>
        rw [hrc] at h
        simp only [Except.map, Prod.mk.injEq] at h
        cases h.2
      | ok a =>
        rw [hrc] at h
        simp only [Except.map] at h
        cases hrest : detectLoop bps s1 rest with
        | mk s3 r3 =>
          rw [hrest] at h
          cases r3 with
          | error e =>
            simp only [Prod.mk.injEq] at h
            cases h.2
          | ok res3 =>
            simp only [Prod.mk.injEq] at h
            obtain ⟨hs2, hres⟩ := h
            cases hres
            subst hs2
            obtain ⟨hinv2, hlen⟩ := ih (pre ++ [x]) s1 hinv1 s3 res3 hrest
            constructor
            · rw [List.append_assoc, List.singleton_append] at hinv2
              exact hinv2
            · rw [hpre1] at hlen
              simp only [List.length_cons]
              omega
    · rw [maybeCycle, if_neg hfullc] at h
      have hthresh : ¬ (L + G ≤ pre.length + 1) := by
        intro hcon
        refine hfullc ((bothFull_iff L G (pre ++ [x]) s1 hinv1).mpr ?_)
        omega
      obtain ⟨hinv2, hlen⟩ := ih (pre ++ [x]) s1 hinv1 s2 res h
      constructor
      · rw [List.append_assoc, List.singleton_append] at hinv2
        exact hinv2
      · rw [hpre1] at hlen
        simp only [List.length_cons]
        omega

theorem prefixCount_zero (calls : List (List ℚ × ℤ)) : prefixCount calls 0 = 0 := by
  simp [prefixCount]

theorem prefixCount_cons (c : List ℚ × ℤ) (calls : List (List ℚ × ℤ)) (j : Nat) :
    prefixCount (c :: calls) (j + 1) = c.1.length + prefixCount calls j := by
  simp [prefixCount]

theorem runCalls_count (bps : List ℚ) (L G : Nat) (hL : 0 < L) :
    ∀ (calls : List (List ℚ × ℤ)) (pre : List ℚ) (s : AssumptionFreeAA),
      WindowInv L G pre s →
      ∀ s2 res, runCalls bps s calls = .ok (s2, res) →
        res.length = calls.length ∧
          ∀ i, i < calls.length →
            (res.getD i []).length =
              (pre.length + prefixCount calls i +
                  (calls.getD i ([], 0)).1.length) -
                max (pre.length + prefixCount calls i) (L + G - 1) := by
  intro calls
  induction calls with
  | nil =>
    intro pre s hinv s2 res h
    simp only [runCalls, Except.ok.injEq, Prod.mk.injEq] at h
    obtain ⟨_, hres⟩ := h
    subst hres
    exact ⟨rfl, fun i hi => by simp at hi⟩
  | cons c rest ih =>
    intro pre s hinv s2 res h
    obtain ⟨dps, ts⟩ := c
    simp only [runCalls] at h
    cases hdet : detect bps s dps ts with
    | mk sd rd =>
      rw [hdet] at h
      cases rd with
      | error e => simp at h
      | ok resd =>
        dsimp only at h
        cases hrc : runCalls bps sd rest with
        | error e => rw [hrc] at h; simp [Except.map] at h
        | ok p =>
          rw [hrc] at h
          simp only [Except.map, Except.ok.injEq, Prod.mk.injEq] at h
          obtain ⟨hs2, hres⟩ := h
          subst hs2
          subst hres
          have hinvts : WindowInv L G pre
              { s with last_timestamp := ts } := hinv
          have hdl : detectLoop bps { s with last_timestamp := ts } dps =
              (sd, .ok resd) := hdet
          obtain ⟨hinvd, hlend⟩ := detectLoop_count bps L G hL dps pre _
            hinvts sd resd hdl
          obtain ⟨hlen, hpt⟩ := ih (pre ++ dps) sd hinvd p.1 p.2 hrc
          constructor
          · simp [hlen]
          · intro i hi
            cases i with
            | zero =>
              simp only [List.getD_cons_zero, prefixCount_zero,
                Nat.add_zero]
              exact hlend
            | succ j =>
              have hj : j < rest.length := by simpa using hi
              have := hpt j hj
              simp only [List.getD_cons_succ, prefixCount_cons]
              rw [this]
              simp only [List.length_append]
              omega

/-- Claim C1 (amended: for runs in which no call raises): starting from a
fresh detector, every `detect` call returns an empty result list until the
total number of ingested samples reaches `L_lead + L_lag`; from the sample
that first fills both windows onward, `detect` produces exactly one
Analysis per ingested sample, in input order — call `i` returns exactly
`(before_i + n_i) - max before_i (L_lead + L_lag - 1)` results, where
`before_i` counts the samples of the earlier calls and `n_i` is the
batch size. -/
theorem detect_result_counts (bps : List ℚ) (w wf lf gf r : Nat)
    (hL : 0 < lf * (wf * w)) (calls : List (List ℚ × ℤ))
    (s2 : AssumptionFreeAA) (res : List (List Analysis))
    (h : runCalls bps (initAFA w wf lf gf r) calls = .ok (s2, res)) :
    res.length = calls.length ∧
      ∀ i, i < calls.length →
        (res.getD i []).length =
          (prefixCount calls i + (calls.getD i ([], 0)).1.length) -
            max (prefixCount calls i) (lf * (wf * w) + gf * (wf * w) - 1) := by
  obtain ⟨hlen, hpt⟩ := runCalls_count bps (lf * (wf * w)) (gf * (wf * w)) hL
    calls [] _ (initAFA_inv w wf lf gf r) s2 res h
  refine ⟨hlen, ?_⟩
  intro i hi
  have hp := hpt i hi
  simpa using hp

/-- Claim C1 as stated is false on the code: with lead and lag capacities
both 1, the batch `[5, 5]` fills both windows at its second sample, but
the call raises the `IndexError` coming from the zero-variance window
instead of returning one Analysis result. -/
theorem detect_result_counts_cex :
    (detect [-1, 0, 1] (initAFA 1 1 1 1 2) [5, 5] 0).2 = .error .saxIndex := by
  have hv5 : qvariance [(5 : ℚ)] = 0 := by norm_num [qvariance, qmean]
  have hs5 : scaleData [(5 : ℚ)] = [SVal.nan] := by simp [scaleData, hv5]
  have hsax5 : sax [-1, 0, 1] [(5 : ℚ)] 1 = .error .saxIndex := by
    simp [sax, hs5, arraySplit, splitSizes, takeChunks, svalMean, firstBreak,
      exMapM, Bind.bind, Except.bind]
  have hgw5 : get_words [-1, 0, 1] [(5 : ℚ)] 1 1 = .error .saxIndex := by
    simp [get_words, exMapM, Bind.bind, Except.bind, List.range_succ, hsax5]
  simp [detect, detectLoop, ingestOne, maybeCycle, runCycle, dequeAppend,
    initAFA, hgw5, Bind.bind, Except.bind, Except.map]

theorem maybeCycle_not_full (bps : List ℚ) (s : AssumptionFreeAA)
    (h : ¬ (s.lead_window.length = s.lead_window_size ∧
      s.lag_window.length = s.lag_window_size)) :
    maybeCycle bps s = .ok none := by
  rw [maybeCycle, if_neg h]

theorem maybeCycle_full_ok (bps : List ℚ) (s : AssumptionFreeAA) (A : Analysis)
    (hfull : s.lead_window.length = s.lead_window_size ∧
      s.lag_window.length = s.lag_window_size)
    (h : runCycle bps s = .ok A) : maybeCycle bps s = .ok (some A) := by
  rw [maybeCycle, if_pos hfull, h]
  rfl

theorem detectLoop_cons_none (bps : List ℚ) (s s1 : AssumptionFreeAA) (x : ℚ)
    (rest : List ℚ) (s2 : AssumptionFreeAA) (res : List Analysis)
    (h1 : ingestOne s x = .ok s1) (h2 : maybeCycle bps s1 = .ok none)
    (h3 : detectLoop bps s1 rest = (s2, .ok res)) :
    detectLoop bps s (x :: rest) = (s2, .ok res) := by
  simp only [detectLoop, h1, h2, h3]

theorem detectLoop_cons_some (bps : List ℚ) (s s1 : AssumptionFreeAA) (x : ℚ)
    (rest : List ℚ) (a : Analysis) (s2 : AssumptionFreeAA) (res : List Analysis)
    (h1 : ingestOne s x = .ok s1) (h2 : maybeCycle bps s1 = .ok (some a))
    (h3 : detectLoop bps s1 rest = (s2, .ok res)) :
    detectLoop bps s (x :: rest) = (s2, .ok (a :: res)) := by
  simp only [detectLoop, h1, h2, h3]

theorem runCycle_ok_eval (bps : List ℚ) (hbps : bps.length < 52)
    (s : AssumptionFreeAA) (hws : s.window_size = 2) (hw : s.word_size = 2)
    (hlead : s.lead_window = [3, 4]) (hlag : s.lag_window = [1, 2]) :
    ∃ A, runCycle bps s = .ok A := by
  have hv34 : qvariance [(3 : ℚ), 4] ≠ 0 := by norm_num [qvariance, qmean]
  have hv12 : qvariance [(1 : ℚ), 2] ≠ 0 := by norm_num [qvariance, qmean]
  have hsax34 := (sax_word bps [3, 4] 2 (by norm_num) (by norm_num) hv34 hbps).1
  have hsax12 := (sax_word bps [1, 2] 2 (by norm_num) (by norm_num) hv12 hbps).1
  have hgw34 : get_words bps [3, 4] 2 2 = .ok [saxSpec bps [3, 4] 2] := by
    unfold get_words
    rw [if_neg (by norm_num), if_neg (by norm_num)]
    simp [exMapM, List.range_succ, hsax34, Bind.bind, Except.bind]
  have hgw12 : get_words bps [1, 2] 2 2 = .ok [saxSpec bps [1, 2] 2] := by
    unfold get_words
    rw [if_neg (by norm_num), if_neg (by norm_num)]
    simp [exMapM, List.range_succ, hsax12, Bind.bind, Except.bind]
  unfold runCycle
  rw [hws, hw, hlead, hlag, hgw34, hgw12]
  exact ⟨_, rfl⟩

/-- Witness for C1: one call with the four samples `[1, 2, 3, 4]` on a
detector with lead and lag capacities 2 succeeds and returns exactly one
Analysis, produced by the fourth sample — the one that first fills both
windows. -/
theorem detect_result_counts_witness :
    ∃ s2 res,
      runCalls [-1, 0, 1] (initAFA 2 1 1 1 1) [([1, 2, 3, 4], 0)] =
        .ok (s2, res) ∧
      res.length = 1 ∧ (res.getD 0 []).length = 1 := by
  have hL : 0 < 1 * (1 * 2) := by norm_num
  have inv0 : WindowInv (1 * (1 * 2)) (1 * (1 * 2)) []
      { initAFA 2 1 1 1 1 with last_timestamp := 0 } :=
    initAFA_inv 2 1 1 1 1
  obtain ⟨s1, hi1, inv1, hw1, hws1, hr1, _⟩ :=
    ingestOne_step _ _ hL [] _ 1 inv0
  rw [List.nil_append] at inv1
  obtain ⟨s2t, hi2, inv2, hw2, hws2, hr2, _⟩ :=
    ingestOne_step _ _ hL [1] s1 2 inv1
  simp only [List.cons_append, List.nil_append] at inv2
  obtain ⟨s3, hi3, inv3, hw3, hws3, hr3, _⟩ :=
    ingestOne_step _ _ hL [1, 2] s2t 3 inv2
  simp only [List.cons_append, List.nil_append] at inv3
  obtain ⟨s4, hi4, inv4, hw4, hws4, hr4, _⟩ :=
    ingestOne_step _ _ hL [1, 2, 3] s3 4 inv3
  simp only [List.cons_append, List.nil_append] at inv4
  have hnf1 : ¬ (s1.lead_window.length = s1.lead_window_size ∧
      s1.lag_window.length = s1.lag_window_size) := by
    intro hcon
    have := (bothFull_iff _ _ [1] s1 inv1).mp hcon
    simp at this
  have hnf2 : ¬ (s2t.lead_window.length = s2t.lead_window_size ∧
      s2t.lag_window.length = s2t.lag_window_size) := by
    intro hcon
    have := (bothFull_iff _ _ [1, 2] s2t inv2).mp hcon
    simp at this
  have hnf3 : ¬ (s3.lead_window.length = s3.lead_window_size ∧
      s3.lag_window.length = s3.lag_window_size) := by
    intro hcon
    have := (bothFull_iff _ _ [1, 2, 3] s3 inv3).mp hcon
    simp at this
  have hfull4 : s4.lead_window.length = s4.lead_window_size ∧
      s4.lag_window.length = s4.lag_window_size :=
    (bothFull_iff _ _ [1, 2, 3, 4] s4 inv4).mpr (by norm_num)
  have hll : s4.lead_window.length = 2 := by
    have := inv4.2.2.1
    simp at this
    omega
  have hgl : s4.lag_window.length = 2 := by
    have := inv4.2.2.2.1
    simp at this
    omega
  have hsuf : s4.lag_window ++ s4.lead_window = [1, 2] ++ [3, 4] := by
    have hs := inv4.2.2.2.2
    rw [hll, hgl] at hs
    simpa using hs
  obtain ⟨hlag4, hlead4⟩ :=
    List.append_inj hsuf (by rw [hgl]; rfl)
  have hws0 : ({ initAFA 2 1 1 1 1 with last_timestamp := (0 : ℤ) }).window_size = 2 := by
    norm_num [initAFA]
  have hw0 : ({ initAFA 2 1 1 1 1 with last_timestamp := (0 : ℤ) }).word_size = 2 := by
    norm_num [initAFA]
  have hws4c : s4.window_size = 2 := by
    rw [hws4, hws3, hws2, hws1, hws0]
  have hw4c : s4.word_size = 2 := by
    rw [hw4, hw3, hw2, hw1, hw0]
  obtain ⟨A, hA⟩ := runCycle_ok_eval [-1, 0, 1] (by norm_num) s4 hws4c hw4c
    hlead4 hlag4
  have hmc1 := maybeCycle_not_full [-1, 0, 1] s1 hnf1
  have hmc2 := maybeCycle_not_full [-1, 0, 1] s2t hnf2
  have hmc3 := maybeCycle_not_full [-1, 0, 1] s3 hnf3
  have hmc4 := maybeCycle_full_ok [-1, 0, 1] s4 A hfull4 hA
  have hdl4 : detectLoop [-1, 0, 1] s4 [] = (s4, .ok []) := rfl
  have hdl3 : detectLoop [-1, 0, 1] s3 [4] = (s4, .ok [A]) :=
    detectLoop_cons_some _ s3 s4 4 [] A s4 [] hi4 hmc4 hdl4
  have hdl2 : detectLoop [-1, 0, 1] s2t [3, 4] = (s4, .ok [A]) :=
    detectLoop_cons_none _ s2t s3 3 [4] s4 [A] hi3 hmc3 hdl3
  have hdl1 : detectLoop [-1, 0, 1] s1 [2, 3, 4] = (s4, .ok [A]) :=
    detectLoop_cons_none _ s1 s2t 2 [3, 4] s4 [A] hi2 hmc2 hdl2
  have hdl0 : detectLoop [-1, 0, 1]
      { initAFA 2 1 1 1 1 with last_timestamp := 0 } [1, 2, 3, 4] =
      (s4, .ok [A]) :=
    detectLoop_cons_none _ _ s1 1 [2, 3, 4] s4 [A] hi1 hmc1 hdl1
  have hdet : detect [-1, 0, 1] (initAFA 2 1 1 1 1) [1, 2, 3, 4] 0 =
      (s4, .ok [A]) := hdl0
  have hrun : runCalls [-1, 0, 1] (initAFA 2 1 1 1 1) [([1, 2, 3, 4], 0)] =
      .ok (s4, [[A]]) := by
    simp only [runCalls, hdet]
    rfl
  have hcount := detect_result_counts [-1, 0, 1] 2 1 1 1 1 (by norm_num)
    [([1, 2, 3, 4], 0)] s4 [[A]] hrun
  refine ⟨s4, [[A]], hrun, hcount.1, ?_⟩
  have hc0 := hcount.2 0 (by norm_num)
  simp only [List.getD_cons_zero, prefixCount_zero] at hc0
  have hc1 : [A].length = 1 := by
    rw [hc0]
    simp only [List.length_cons, List.length_nil]
    omega
  simp only [List.getD_cons_zero]
  exact hc1

theorem ingestOne_timestamp (s s1 : AssumptionFreeAA) (x : ℚ)
    (h : ingestOne s x = .ok s1) : s1.last_timestamp = s.last_timestamp := by
  unfold ingestOne at h
  by_cases hc : s.lead_window.length = s.lead_window_size
  · rw [if_pos hc] at h
    cases hlw : s.lead_window with
    | nil => rw [hlw] at h; cases h
    | cons y rest =>
      rw [hlw] at h
      cases h
      rfl
  · rw [if_neg hc] at h
    cases h
    rfl

theorem detectLoop_state (bps : List ℚ) :
    ∀ (dps : List ℚ) (s : AssumptionFreeAA),
      (detectLoop bps s dps).1.last_timestamp = s.last_timestamp ∧
        ∀ e, (detectLoop bps s dps).2 = .error e →
          ∃ k, k ≤ dps.length ∧
            ingestAll s (dps.take k) = .ok (detectLoop bps s dps).1 ∧
            ((∃ hk : k < dps.length,
                ingestOne (detectLoop bps s dps).1 (dps.get ⟨k, hk⟩) =
                  .error e) ∨
              (0 < k ∧
                maybeCycle bps (detectLoop bps s dps).1 = .error e)) := by
  intro dps
  induction dps with
  | nil =>
    intro s
    refine ⟨rfl, ?_⟩
    intro e he
    simp [detectLoop] at he
  | cons x rest ih =>
    intro s
    cases hi : ingestOne s x with
    | error e1 =>
      have hdl : detectLoop bps s (x :: rest) = (s, .error e1) := by
        simp only [detectLoop, hi]
      rw [hdl]
      refine ⟨rfl, ?_⟩
      intro e he
      have he1 : e1 = e := by simpa using he
      subst he1
      refine ⟨0, Nat.zero_le _, rfl, Or.inl ⟨by simp, ?_⟩⟩
      exact hi
    | ok s1 =>
      have hts1 : s1.last_timestamp = s.last_timestamp :=
        ingestOne_timestamp s s1 x hi
      cases hmc : maybeCycle bps s1 with
      | error e1 =>
        have hdl : detectLoop bps s (x :: rest) = (s1, .error e1) := by
          simp only [detectLoop, hi, hmc]
        rw [hdl]
        refine ⟨hts1, ?_⟩
        intro e he
        have he1 : e1 = e := by simpa using he
        subst he1
        refine ⟨1, by simp only [List.length_cons]; omega, ?_,
          Or.inr ⟨by omega, hmc⟩⟩
        simp [ingestAll, hi, Bind.bind, Except.bind]
      | ok o =>
        obtain ⟨ihts, iherr⟩ := ih s1
        cases o with
        | none =>
          have hdl : detectLoop bps s (x :: rest) = detectLoop bps s1 rest := by
            simp only [detectLoop, hi, hmc]
          rw [hdl]
          refine ⟨by rw [ihts, hts1], ?_⟩
          intro e he
          obtain ⟨k, hk, hia, hdisj⟩ := iherr e he
          refine ⟨k + 1, by simp only [List.length_cons]; omega, ?_, ?_⟩
          · rw [List.take_succ_cons]
            simp [ingestAll, hi, Bind.bind, Except.bind, hia]
          · rcases hdisj with ⟨hk2, hio⟩ | ⟨hpos, hmc2⟩
            · exact Or.inl ⟨by simp only [List.length_cons]; omega, hio⟩
            · exact Or.inr ⟨by omega, hmc2⟩
        | some a =>
          cases hrest : detectLoop bps s1 rest with
          | mk s2 r2 =>
            rw [hrest] at ihts
            cases r2 with
            | error e1 =>
              have hdl : detectLoop bps s (x :: rest) = (s2, .error e1) := by
                simp only [detectLoop, hi, hmc, hrest]
              rw [hdl]
              refine ⟨by dsimp only at ihts ⊢; rw [ihts, hts1], ?_⟩
              intro e he
              have he1 : e1 = e := by simpa using he
              subst he1
              have iherr2 := iherr e1 (by rw [hrest])
              rw [hrest] at iherr2
              dsimp only at iherr2
              obtain ⟨k, hk, hia, hdisj⟩ := iherr2
              refine ⟨k + 1, by simp only [List.length_cons]; omega, ?_, ?_⟩
              · rw [List.take_succ_cons]
                simp only [ingestAll, hi, Bind.bind, Except.bind]
                exact hia
              · rcases hdisj with ⟨hk2, hio⟩ | ⟨hpos, hmc2⟩
                · exact Or.inl ⟨by simp only [List.length_cons]; omega, hio⟩
                · exact Or.inr ⟨by omega, hmc2⟩
            | ok res2 =>
              have hdl : detectLoop bps s (x :: rest) =
                  (s2, .ok (a :: res2)) := by
                simp only [detectLoop, hi, hmc, hrest]
              rw [hdl]
              refine ⟨by dsimp only at ihts ⊢; rw [ihts, hts1], ?_⟩
              intro e he
              simp at he

/-- Claim C10: `detect` records the timestamp before any sample is
processed — the returned state carries it even for an empty batch and even
when the batch aborts with an exception; an empty batch changes nothing
else and returns no results; and on an exception every sample ingested
before the error remains in effect (no rollback): the returned state is
exactly the timestamp-updated state after ingesting the first `k` samples
of the batch, where the failing operation is identified at that very
state — either ingesting sample `k + 1` raises the propagated exception,
or the detection cycle run after ingesting sample `k` does. -/
theorem detect_timestamp_no_rollback (bps : List ℚ) (s : AssumptionFreeAA)
    (dps : List ℚ) (ts : ℤ) :
    (detect bps s dps ts).1.last_timestamp = ts ∧
      detect bps s [] ts = ({ s with last_timestamp := ts }, .ok []) ∧
      ∀ e, (detect bps s dps ts).2 = .error e →
        ∃ k, k ≤ dps.length ∧
          ingestAll { s with last_timestamp := ts } (dps.take k) =
            .ok (detect bps s dps ts).1 ∧
          ((∃ hk : k < dps.length,
              ingestOne (detect bps s dps ts).1 (dps.get ⟨k, hk⟩) =
                .error e) ∨
            (0 < k ∧
              maybeCycle bps (detect bps s dps ts).1 = .error e)) := by
  obtain ⟨hts, herr⟩ := detectLoop_state bps dps { s with last_timestamp := ts }
  exact ⟨hts, rfl, herr⟩

/-- Full evaluation of a call that raises: with lead and lag capacities 1
and the constant batch `[5, 5]`, the second sample's detection cycle hits
the zero-variance `IndexError`; the returned state keeps the recorded
timestamp and both ingested samples. -/
theorem detect_const_run :
    detect [-1, 0, 1] (initAFA 1 1 1 1 2) [5, 5] 7 =
      ({ word_size := 1, window_factor := 1, window_size := 1,
         lead_window_factor := 1, lead_window_size := 1,
         lag_window_factor := 1, lag_window_size := 1,
         universe_size := 2, recursion_level := 2,
         lead_window := [5], lag_window := [5], last_timestamp := 7 },
        .error .saxIndex) := by
  have hv5 : qvariance [(5 : ℚ)] = 0 := by norm_num [qvariance, qmean]
  have hs5 : scaleData [(5 : ℚ)] = [SVal.nan] := by simp [scaleData, hv5]
  have hsax5 : sax [-1, 0, 1] [(5 : ℚ)] 1 = .error .saxIndex := by
    simp [sax, hs5, arraySplit, splitSizes, takeChunks, svalMean, firstBreak,
      exMapM, Bind.bind, Except.bind]
  have hgw5 : get_words [-1, 0, 1] [(5 : ℚ)] 1 1 = .error .saxIndex := by
    simp [get_words, exMapM, Bind.bind, Except.bind, List.range_succ, hsax5]
  simp [detect, detectLoop, ingestOne, maybeCycle, runCycle, dequeAppend,
    initAFA, hgw5, Bind.bind, Except.bind, Except.map]

/-- Witness for C10 at a call that raises: the timestamp update survives
the exception, and the returned state is the ingestion of a prefix of the
batch at which the identified failing operation raises. -/
theorem detect_timestamp_no_rollback_witness :
    (detect [-1, 0, 1] (initAFA 1 1 1 1 2) [5, 5] 7).1.last_timestamp = 7 ∧
      ∃ k, k ≤ ([5, 5] : List ℚ).length ∧
        ingestAll { initAFA 1 1 1 1 2 with last_timestamp := (7 : ℤ) }
            (([5, 5] : List ℚ).take k) =
          .ok (detect [-1, 0, 1] (initAFA 1 1 1 1 2) [5, 5] 7).1 ∧
        ((∃ hk : k < ([5, 5] : List ℚ).length,
            ingestOne (detect [-1, 0, 1] (initAFA 1 1 1 1 2) [5, 5] 7).1
              (([5, 5] : List ℚ).get ⟨k, hk⟩) = .error .saxIndex) ∨
          (0 < k ∧
            maybeCycle [-1, 0, 1]
              (detect [-1, 0, 1] (initAFA 1 1 1 1 2) [5, 5] 7).1 =
              .error .saxIndex)) := by
  have h := detect_timestamp_no_rollback [-1, 0, 1] (initAFA 1 1 1 1 2)
    [5, 5] 7
  refine ⟨h.1, h.2.2 .saxIndex ?_⟩
  rw [detect_const_run]
